import Mathlib

/-!
Verification of the coauthors2tex repository (src/general.py and
src/coauthors_to_tex/xmatch_authors.py) against its natural-language
specification.  Python strings are modelled as Lean `String`
(`List Char` underneath, matching Python's code-point indexing); the
numpy arrays holding names and initials are modelled as Lean lists; the
mutating widening loop of `mk_initials` becomes explicit state passing
with a structurally decreasing round counter that mirrors the source's
`Nite > 10` cap.  All definitions are structural so that concrete runs
reduce by `decide`/`rfl`.
-/

/-! ## Elementary string helpers mirroring the Python primitives -/

/-- Python `str.lower()` restricted to the ASCII range that the source's
prefix tests ("de ", "da ") rely on. -/
def pyLower (s : String) : String := ⟨s.data.map Char.toLower⟩

/-- Python `str.split(sep)` for a single-character separator: keeps empty
parts and always returns at least one part. -/
def splitChar (sep : Char) : List Char → List (List Char)
  | [] => [[]]
  | c :: t =>
    match splitChar sep t with
    | [] => [[]]
    | h :: r => if c == sep then [] :: h :: r else (c :: h) :: r

/-- Split a string on a single-character separator, Python-style. -/
def splitStr (sep : Char) (s : String) : List String :=
  (splitChar sep s.data).map (fun cs => ⟨cs⟩)

/-- Python `str.strip()`: remove leading and trailing whitespace. -/
def trimStr (s : String) : String :=
  ⟨((s.data.dropWhile Char.isWhitespace).reverse.dropWhile Char.isWhitespace).reverse⟩

/-- Python `str.replace(pat, rep)`: left-to-right, non-overlapping, the
replacement text is not rescanned.  `fuel` is the length of the text,
which suffices because every step consumes at least one character. -/
def replaceList (pat rep : List Char) : Nat → List Char → List Char
  | 0, hay => hay
  | _ + 1, [] => []
  | fuel + 1, c :: t =>
    if pat.isPrefixOf (c :: t) then
      rep ++ replaceList pat rep fuel ((c :: t).drop pat.length)
    else
      c :: replaceList pat rep fuel t

/-- Python `str.replace` on strings (total, structural). -/
def strReplace (s pat rep : String) : String :=
  ⟨replaceList pat.data rep.data s.data.length s.data⟩

/-- Python `sep.join(parts)`: the separator goes strictly between
consecutive parts. -/
def joinSep (sep : String) : List String → String
  | [] => ""
  | [a] => a
  | a :: b :: t => a ++ sep ++ joinSep sep (b :: t)

/-- Contiguous-sublist test on character lists. -/
def infixOfB (pat : List Char) : List Char → Bool
  | [] => pat.isEmpty
  | c :: t => pat.isPrefixOf (c :: t) || infixOfB pat t

/-- Python `pat in s` for strings (contiguous substring test). -/
def strContains (s pat : String) : Bool := infixOfB pat.data s.data

/-- Python `s.replace(' ', '')`: drop every space character. -/
def despace (s : String) : String := ⟨s.data.filter (fun c => c != ' ')⟩

/-! ## Initials assignment (src/general.py, `mk_initials`, lines 294-358)

The Python loop mutates `last_names` in place, keeps a per-person width
array `Nlast`, recomputes all initials each round, flags colliding pairs,
widens flagged entries, and aborts via `exit()` once the iteration
counter `Nite` exceeds 10 — i.e. at the start of the 11th round the next
round is the last one, and its collision check is never consulted.  We
model the three possible outcomes explicitly. -/

/-- Outcome of `mk_initials`: normal return, the `Nite > 10` abort (with
the labels of the entries flagged duplicate in the final round, as printed
by the source), or a Python `IndexError` from indexing into an empty
first-name part. -/
inductive MkResult where
  | ok (labels : List String)
  | tooMany (colliding : List String)
  | indexError
  deriving DecidableEq, Repr

/-- Does the outcome carry a normal return? -/
def MkResult.isOk : MkResult → Bool
  | .ok _ => true
  | _ => false

/-- One round of last-name prefix removal (src/general.py lines 309-313):
strip a leading "de " if present, then — on the already-stripped value —
strip a leading "da " if present.  Both tests are case-insensitive. -/
def stripName (ln : String) : String :=
  let s1 := if "de ".data.isPrefixOf (pyLower ln).data then ⟨ln.data.drop 3⟩ else ln
  if "da ".data.isPrefixOf (pyLower s1).data then ⟨s1.data.drop 3⟩ else s1

/-- The per-round in-place update of the whole `last_names` array. -/
def stripAll (lasts : List String) : List String := lasts.map stripName

/-- First-name token (src/general.py lines 316-326): first letters of the
first two space-separated parts, or of the first two hyphen-separated
parts joined by a hyphen, or the single first letter.  Indexing `[0]` on
an empty part raises `IndexError`, hence the `Option`. -/
def mkFirstInitial (fn : String) : Option String :=
  if fn.data.contains ' ' then
    match (splitStr ' ' fn).getD 0 "" , (splitStr ' ' fn).getD 1 "" with
    | p0, p1 =>
      match p0.data.head?, p1.data.head? with
      | some c0, some c1 => some ⟨[c0, c1]⟩
      | _, _ => none
  else if fn.data.contains '-' then
    match (splitStr '-' fn).getD 0 "" , (splitStr '-' fn).getD 1 "" with
    | p0, p1 =>
      match p0.data.head?, p1.data.head? with
      | some c0, some c1 => some ⟨[c0, '-', c1]⟩
      | _, _ => none
  else
    fn.data.head?.map (fun c => ⟨[c]⟩)

/-- Last-name token (src/general.py lines 329-337): the first `w` letters
(`Nlast[i]`) of the last name, or of its first two space/hyphen parts.
Python slices (`[0:Nlast]`) never raise, so this is total. -/
def mkLastPart (ln : String) (w : Nat) : String :=
  if ln.data.contains ' ' then
    ⟨((splitStr ' ' ln).getD 0 "").data.take w ++ ((splitStr ' ' ln).getD 1 "").data.take w⟩
  else if ln.data.contains '-' then
    ⟨((splitStr '-' ln).getD 0 "").data.take w ++ '-' :: ((splitStr '-' ln).getD 1 "").data.take w⟩
  else
    ⟨ln.data.take w⟩

/-- One person's label at last-name width `w`. -/
def mkOne (fn ln : String) (w : Nat) : Option String :=
  (mkFirstInitial fn).map (fun fi => fi ++ mkLastPart ln w)

/-- All labels of one round (the `for i in range(len(first_names))` body);
`none` propagates the first `IndexError`. -/
def mkRow : List String → List String → List Nat → Option (List String)
  | [], _, _ => some []
  | fn :: fns, ln :: lns, w :: ws =>
    match mkOne fn ln w, mkRow fns lns ws with
    | some l, some r => some (l :: r)
    | _, _ => none
  | _ :: _, _, _ => none

/-- Python marks `duplicate[i] = duplicate[j] = True` for every pair
`i < j` with equal labels; so entry `i` is flagged exactly when some other
index holds the same label. -/
def dupFlag (inits : List String) (i : Nat) : Bool :=
  (List.range inits.length).any (fun j => j != i && inits.getD i "" == inits.getD j "")

/-- The whole `duplicate` array of one round. -/
def dupFlags (inits : List String) : List Bool :=
  (List.range inits.length).map (dupFlag inits)

/-- `Nlast[duplicate] += 1`. -/
def widen (nlast : List Nat) (dup : List Bool) : List Nat :=
  List.zipWith (fun n d => if d then n + 1 else n) nlast dup

/-- `initials[duplicate]`: the labels of the flagged entries, in order. -/
def maskSelect (inits : List String) (dup : List Bool) : List String :=
  ((inits.zip dup).filter (fun p => p.2)).map (fun p => p.1)

/-- The widening loop of `mk_initials`.  `fuel` counts the rounds still
allowed before the `Nite > 10` abort fires: the source starts at
`Nite = 0` and aborts when `Nite` reaches 11, so the top-level call uses
`fuel = 10` and the abort fires — regardless of whether the final round
still has collisions — when `fuel` hits 0.  Returns the outcome together
with the final (mutated) `first_names` and `last_names` arrays. -/
def mkInitialsAux (firsts : List String) :
    List String → List Nat → Nat → MkResult × List String × List String
  | lasts, nlast, fuel =>
    match mkRow firsts (stripAll lasts) nlast with
    | none => (.indexError, firsts, stripAll lasts)
    | some inits =>
      match fuel with
      | 0 => (.tooMany (maskSelect inits (dupFlags inits)), firsts, stripAll lasts)
      | f + 1 =>
        if (dupFlags inits).any (fun b => b) then
          mkInitialsAux firsts (stripAll lasts) (widen nlast (dupFlags inits)) f
        else
          (.ok inits, firsts, stripAll lasts)

/-- `mk_initials(first_names, last_names)` (src/general.py lines 294-358):
result only.  The initial width array is all ones and the loop is entered
unconditionally (the initial `duplicate` array is all `True`). -/
def mk_initials (firsts lasts : List String) : MkResult :=
  (mkInitialsAux firsts lasts (List.replicate lasts.length 1) 10).1

/-- The `last_names` array as the caller sees it after `mk_initials`
returns (the source mutates it in place). -/
def mkInitialsFinalLasts (firsts lasts : List String) : List String :=
  (mkInitialsAux firsts lasts (List.replicate lasts.length 1) 10).2.2

/-- The `first_names` array as the caller sees it after `mk_initials`
returns (the source never assigns to it; the embedding threads it through
the loop unchanged). -/
def mkInitialsFinalFirsts (firsts lasts : List String) : List String :=
  (mkInitialsAux firsts lasts (List.replicate lasts.length 1) 10).2.1

/-! ## Fuzzy name matching (src/coauthors_to_tex/xmatch_authors.py)

The roster rows carry the `AUTHOR` display name and the `SHORTNAME`
short-code.  The third-party pieces — `fuzz.token_sort_ratio` (similarity
scores, floats in 0..100, modelled as exact rationals) and
`general.normalize_name` (Unicode NFD decomposition, not representable
faithfully in Lean) — enter as parameters `scorer` and `norm`; everything
the claims speak about (best-entry selection, threshold test, sentinel,
per-name totality) is repository code and is embedded concretely. -/

/-- One row of the author roster as used by the matcher. -/
structure RosterRow where
  author : String
  shortname : String
  deriving DecidableEq, Repr

/-- One output row of the matcher (the tuple appended to `matches`). -/
structure MatchRow where
  inputName : String
  matchedAuthor : String
  shortname : String
  score : ℚ
  id : Nat
  deriving DecidableEq, Repr

/-- `SCORE_MIN` (src/coauthors_to_tex/xmatch_authors.py line 8), the
default `--score_min`. -/
def SCORE_MIN : ℚ := 80

/-- The scan inside `rapidfuzz.process.extractOne`: keep the current best
`(choice, score, index)`, replacing it only on a strictly better score, so
ties keep the earliest entry. -/
def extractOneAux (scorer : String → String → ℚ) (query : String) :
    List String → Nat → String × ℚ × Nat → String × ℚ × Nat
  | [], _, best => best
  | c :: cs, i, best =>
    let s := scorer query c
    if best.2.1 < s then
      extractOneAux scorer query cs (i + 1) (c, s, i)
    else
      extractOneAux scorer query cs (i + 1) best

/-- `process.extractOne(query, choices, scorer=...)`: `none` on an empty
choice list (rapidfuzz returns `None`, which the source then unpacks,
raising `TypeError`). -/
def extractOne (scorer : String → String → ℚ) (query : String) :
    List String → Option (String × ℚ × Nat)
  | [] => none
  | c :: cs => some (extractOneAux scorer query cs 1 (c, scorer query c, 0))

/-- The body of the matching loop (src/coauthors_to_tex/xmatch_authors.py
lines 60-66) for one input name: normalize, find the best roster entry,
and accept its short-code only when `score > score_min`. -/
def matchOne (scorer : String → String → ℚ) (norm : String → String)
    (roster : List RosterRow) (scoreMin : ℚ) (name : String) : Option MatchRow :=
  match extractOne scorer (norm name) (roster.map (fun r => norm r.author)) with
  | none => none
  | some (_, score, idx) =>
    some { inputName := name,
           matchedAuthor := (roster.getD idx ⟨"", ""⟩).author,
           shortname := if scoreMin < score then (roster.getD idx ⟨"", ""⟩).shortname
                        else "NO MATCH",
           score := score,
           id := idx }

/-- The whole matching loop: one row per name; an exception anywhere
aborts the run, hence the `Option` on the list. -/
def xmatchAll (scorer : String → String → ℚ) (norm : String → String)
    (roster : List RosterRow) (scoreMin : ℚ) : List String → Option (List MatchRow)
  | [] => some []
  | n :: ns =>
    match matchOne scorer norm roster scoreMin n, xmatchAll scorer norm roster scoreMin ns with
    | some row, some rows => some (row :: rows)
    | _, _ => none

/-- Input parsing (src/coauthors_to_tex/xmatch_authors.py lines 51-53):
split the joined input on commas, strip each name, and drop names of
length below 2. -/
def parseCoauthors (input : String) : List String :=
  ((splitStr ',' input).map trimStr).filter (fun n => 1 < n.data.length)

/-! ## AANDA-style rendering (src/general.py lines 707-770)

Per-paper author rows carry the display name, the raw comma-separated
affiliation string, and (for the acknowledgement machinery) the raw
acknowledgement string plus the derived initials. -/

/-- One row of the per-paper author table. -/
structure PaperAuthor where
  author : String
  affiliations : String
  acknowledgements : String
  initials : String
  deriving DecidableEq, Repr

/-- One row of the affiliation roster. -/
structure AffilRow where
  shortname : String
  affiliation : String
  deriving DecidableEq, Repr

/-- `ordered_affiliations` (src/general.py lines 710-717): scan the
authors in paper order, split each affiliation cell on commas, strip each
entry, and append it if unseen.  The parallel `ordered_numerical_tags`
list always holds `str(position + 1)`, so it is recovered from the index
and needs no separate state. -/
def orderedAffiliations (authors : List PaperAuthor) : List String :=
  authors.foldl
    (fun acc au =>
      (splitStr ',' au.affiliations).foldl
        (fun acc2 a =>
          let s := trimStr a
          if s ∈ acc2 then acc2 else acc2 ++ [s])
        acc)
    []

/-- The numeric tag the source attaches to a stripped affiliation:
`ordered_numerical_tags[affil_str == ordered_affiliations][0]` is the tag
stored at the first index holding `affil_str`, i.e. `str(indexOf + 1)`. -/
def affilTag (ordered : List String) (s : String) : String :=
  toString (ordered.indexOf s + 1)

/-- The `\inst{...}` body built by the loop at src/general.py lines
732-739: for each raw entry, its tag, followed by a comma whenever the
STRIPPED entry differs from the RAW last entry of the author's list. -/
def affilBody (ordered : List String) : List String → String → String
  | [], _ => ""
  | a :: rest, rawLast =>
    (affilTag ordered (trimStr a) ++ (if trimStr a != rawLast then "," else "")) ++
      affilBody ordered rest rawLast

/-- The full per-author annotation (src/general.py lines 728-744): the
body in braces, with `,*` appended for the first author. -/
def affilTxt (ordered : List String) (affilStr : String) (isFirst : Bool) : String :=
  "\\inst\x7b" ++
    affilBody ordered (splitStr ',' affilStr) ((splitStr ',' affilStr).getLastD "") ++
    (if isFirst then ",*" else "") ++ "\x7d"

/-- `tbl_affiliations['AFFILIATION'][tbl_affiliations['SHORTNAME'] == s][0]`:
display text of the first roster row with the given short-code; `none`
models the `IndexError` on a dangling code. -/
def affilLookup (roster : List AffilRow) (s : String) : Option String :=
  (roster.find? (fun r => r.shortname == s)).map (fun r => r.affiliation)

/-- The institute block entries (src/general.py lines 762-766): for each
position `k` in first-seen order, the tag `str(k+1)` and the looked-up
display text. -/
def instituteEntries (ordered : List String) (roster : List AffilRow) :
    List (String × Option String) :=
  (List.range ordered.length).map
    (fun k => (toString (k + 1), affilLookup roster (ordered.getD k "")))

/-- The flattened stream of stripped affiliation entries in scan order
(used to state what "first-seen order" means). -/
def affilStream (authors : List PaperAuthor) : List String :=
  (authors.map (fun au => (splitStr ',' au.affiliations).map trimStr)).flatten

/-! ## Acknowledgement assembly (src/general.py lines 822-852) -/

/-- One row of the acknowledgement roster. -/
structure AckRow where
  code : String
  text : String
  deriving DecidableEq, Repr

/-- The parsed acknowledgement code list of one author:
`ack.replace(' ','').split(',')` (src/general.py line 825). -/
def ackCodes (au : PaperAuthor) : List String :=
  splitStr ',' (despace au.acknowledgements)

/-- `unique_acknowledgements` (src/general.py lines 823-830): first-seen
distinct codes over all authors, skipping the `'0'` placeholder. -/
def uniqueAcknowledgements (authors : List PaperAuthor) : List String :=
  authors.foldl
    (fun acc au =>
      (ackCodes au).foldl
        (fun acc2 aa =>
          if aa == "0" then acc2
          else if aa ∈ acc2 then acc2 else acc2 ++ [aa])
        acc)
    []

/-- `who` for one code (src/general.py lines 834-837): the initials of
every author whose RAW acknowledgement cell contains the code as a
substring (Python's `uack in tbl_authors_paper['ACKNOWLEDGEMENTS'][i]`). -/
def ackWho (authors : List PaperAuthor) (uack : String) : List String :=
  (authors.filter (fun au => strContains au.acknowledgements uack)).map
    (fun au => au.initials)

/-- `who_txt` (src/general.py lines 839-843): comma-join all but the last,
then ` \& ` and the last, with a trailing space; a single contributor is
just the initials and a space; `who[0]` on an empty list raises. -/
def whoTxt : List String → Option String
  | [] => none
  | [w] => some (w ++ " ")
  | w :: ws => some (joinSep ", " ((w :: ws).dropLast) ++ " \\& " ++ (w :: ws).getLastD "" ++ " ")

/-- `tbl_acknowledgements['ACKNOWLEDGEMENTS_TEXT'][g_ack].data[0]`: text of
the first roster row with the given code. -/
def ackTextFor (ackRoster : List AckRow) (uack : String) : Option String :=
  (ackRoster.find? (fun r => r.code == uack)).map (fun r => r.text)

/-- The guarded substitution (src/general.py lines 847-848): replace every
`{INITIALS}` occurrence when one is present. -/
def substGuard (txt w : String) : String :=
  if strContains txt "\x7bINITIALS\x7d" then strReplace txt "\x7bINITIALS\x7d" w else txt

/-- The rendered acknowledgement text of one code: contributors' joined
initials substituted into the code's template. -/
def ackGroupText (authors : List PaperAuthor) (ackRoster : List AckRow)
    (uack : String) : Option String :=
  match whoTxt (ackWho authors uack), ackTextFor ackRoster uack with
  | some w, some t => some (substGuard t w)
  | _, _ => none

/-! ## Output post-processing (src/general.py lines 182-190, 775-777,
854, 862-870) -/

/-- `LETTER_2_LATEX` (src/coauthors_to_tex/constants.py lines 38-84), in
insertion order (Python dict iteration order). -/
def LETTER_2_LATEX : List (String × String) :=
  [("é", "\\'e"), ("è", "\\`e"), ("ê", "\\^e"), ("à", "\\`a"), ("â", "\\^a"),
   ("ç", "\\c\x7bc\x7d"), ("ù", "\\`u"), ("û", "\\^u"), ("ô", "\\^o"), ("î", "\\^i"),
   ("ï", "\\\"i"), ("ë", "\\\"e"), ("ü", "\\\"u"), ("ö", "\\\"o"), ("ä", "\\\"a"),
   ("ÿ", "\\\"y"), ("É", "\\'E"), ("È", "\\`E"), ("Ê", "\\^E"), ("À", "\\`A"),
   ("Â", "\\^A"), ("Ç", "\\c\x7bC\x7d"), ("Ù", "\\`U"), ("Û", "\\^U"), ("Ô", "\\^O"),
   ("Î", "\\^I"), ("Ï", "\\\"I"), ("Ë", "\\\"E"), ("Ü", "\\\"U"), ("Ö", "\\\"O"),
   ("Ä", "\\\"A"), ("Ÿ", "\\\"Y"), ("á", "\\'a"), ("í", "\\'i"), ("ó", "\\'o"),
   ("ú", "\\'u"), ("ñ", "\\~n"), ("Á", "\\'A"), ("Í", "\\'I"), ("Ó", "\\'O"),
   ("Ú", "\\'U"), ("Ñ", "\\~N"), ("ã", "\\~a"), ("õ", "\\~o"), ("Ã", "\\~A"),
   ("Õ", "\\~O")]

/-- `latexify_accents` (src/general.py lines 193-202): apply every
accent-to-LaTeX replacement in table order. -/
def latexify_accents (txt : String) : String :=
  LETTER_2_LATEX.foldl (fun acc p => strReplace acc p.1 p.2) txt

/-- `safe_latex` (src/general.py lines 182-190): replace the
space-surrounded ampersand pattern only. -/
def safe_latex (txt : String) : String := strReplace txt " & " " \\& "

/-- Is a double space present? -/
def containsPair : List Char → Bool
  | [] => false
  | [_] => false
  | c1 :: c2 :: t => if c1 = ' ' ∧ c2 = ' ' then true else containsPair (c2 :: t)

/-- One pass of `output.replace('  ', ' ')`: left-to-right,
non-overlapping, the replacement (a single space) is not rescanned. -/
def replacePass : List Char → List Char
  | [] => []
  | [c] => [c]
  | c1 :: c2 :: t =>
    if c1 = ' ' ∧ c2 = ' ' then ' ' :: replacePass t else c1 :: replacePass (c2 :: t)

/-- The `while '  ' in output:` loop (src/general.py lines 865-866) with
a structural fuel; each productive pass shortens the text, so the text
length is enough fuel. -/
def collapseFuel : Nat → List Char → List Char
  | 0, s => s
  | f + 1, s => if containsPair s then collapseFuel f (replacePass s) else s

/-- Collapse runs of spaces until no double space remains. -/
def collapseSpaces (s : List Char) : List Char := collapseFuel s.length s

/-- The space-collapsing loop lifted to strings. -/
def strCollapse (s : String) : String := ⟨collapseSpaces s.data⟩

/-- The text written to `<paper key>_coauthors.tex` (src/general.py lines
775-777, 854, 862-870): the author block is accent-escaped then
ampersand-escaped, the acknowledgement block only accent-escaped; the two
are joined with a blank line and double spaces are collapsed. -/
def finalOutput (authorBlock ackBlock : String) : String :=
  strCollapse (safe_latex (latexify_accents authorBlock)
    ++ "\n\n" ++ latexify_accents ackBlock)

/-- Claim-side predicate: every ampersand is escaped, i.e. preceded by a
backslash.  `prev` is the character before the current scan position. -/
def ampsEscapedFrom (prev : Char) : List Char → Bool
  | [] => true
  | c :: t => (c != '&' || prev == '\\') && ampsEscapedFrom c t

/-- Every ampersand of the text is preceded by a backslash. -/
def ampsEscaped (s : List Char) : Bool := ampsEscapedFrom ' ' s

/-- Claim-side join: initials separated by `", "` with `" \& "` before the
last one and a trailing space (spec section 4.4). -/
def specJoinInitials : List String → String
  | [] => ""
  | [w] => w ++ " "
  | [w1, w2] => w1 ++ " \\& " ++ w2 ++ " "
  | w :: ws => w ++ ", " ++ specJoinInitials ws

/-! ## Helper definitions used only in statements and proofs -/

/-- First-seen insertion characterized recursively: the entries of `l`
not yet in `seen`, each kept at its first occurrence. -/
def firstNew : List String → List String → List String
  | [], _ => []
  | a :: t, seen => if a ∈ seen then firstNew t seen else a :: firstNew t (seen ++ [a])

/-- Does the last name start with the case-insensitive prefix "de "? -/
def startsDe (ln : String) : Bool := "de ".data.isPrefixOf (pyLower ln).data

/-- Does the last name start with the case-insensitive prefix "da "? -/
def startsDa (ln : String) : Bool := "da ".data.isPrefixOf (pyLower ln).data

/-- One first-seen insertion step (the body of the ordered-affiliation
scan, abstracted over the accumulator). -/
def insertNew (acc : List String) (s : String) : List String :=
  if s ∈ acc then acc else acc ++ [s]

/-! # Theorems -/

/-! ## Initials assignment: basic round lemmas -/

theorem mkFirstInitial_ne_empty {fn : String} {s : String}
    (h : mkFirstInitial fn = some s) : s ≠ "" := by
  unfold mkFirstInitial at h
  split at h
  · split at h
    split at h
    · cases h
      intro hc
      cases (String.ext_iff.mp hc)
    · cases h
  · split at h
    · split at h
      split at h
      · cases h
        intro hc
        cases (String.ext_iff.mp hc)
      · cases h
    · match fn, h with
      | ⟨c :: _⟩, h =>
        simp only [List.head?, Option.map_some'] at h
        cases h
        intro hc
        cases (String.ext_iff.mp hc)

theorem mkOne_ne_empty {fn ln : String} {w : Nat} {s : String}
    (h : mkOne fn ln w = some s) : s ≠ "" := by
  unfold mkOne at h
  cases hfi : mkFirstInitial fn with
  | none => rw [hfi] at h; cases h
  | some fi =>
    rw [hfi] at h
    simp only [Option.map_some'] at h
    cases h
    have hne := mkFirstInitial_ne_empty hfi
    intro hc
    apply hne
    have := String.ext_iff.mp hc
    rw [String.data_append] at this
    rcases List.append_eq_nil.mp this with ⟨h1, _⟩
    exact String.ext h1

theorem mkRow_length :
    ∀ {fns lns : List String} {ws : List Nat} {r : List String},
      mkRow fns lns ws = some r → r.length = fns.length := by
  intro fns
  induction fns with
  | nil => intro lns ws r h; cases h; rfl
  | cons fn fns ih =>
    intro lns ws r h
    match lns, ws with
    | [], _ => cases h
    | _ :: _, [] => cases h
    | ln :: lns, w :: ws =>
      unfold mkRow at h
      cases h1 : mkOne fn ln w with
      | none => rw [h1] at h; cases h
      | some l =>
        cases h2 : mkRow fns lns ws with
        | none => rw [h1, h2] at h; cases h
        | some rest =>
          rw [h1, h2] at h
          cases h
          simp [ih h2]

theorem mkRow_ne_empty :
    ∀ {fns lns : List String} {ws : List Nat} {r : List String},
      mkRow fns lns ws = some r → ∀ x ∈ r, x ≠ "" := by
  intro fns
  induction fns with
  | nil => intro lns ws r h; cases h; intro x hx; cases hx
  | cons fn fns ih =>
    intro lns ws r h
    match lns, ws with
    | [], _ => cases h
    | _ :: _, [] => cases h
    | ln :: lns, w :: ws =>
      unfold mkRow at h
      cases h1 : mkOne fn ln w with
      | none => rw [h1] at h; cases h
      | some l =>
        cases h2 : mkRow fns lns ws with
        | none => rw [h1, h2] at h; cases h
        | some rest =>
          rw [h1, h2] at h
          cases h
          intro x hx
          rcases List.mem_cons.mp hx with he | hm
          · subst he; exact mkOne_ne_empty h1
          · exact ih h2 x hm

theorem nodup_of_dupFlags_false {inits : List String}
    (h : (dupFlags inits).any (fun b => b) = false) : inits.Nodup := by
  rw [List.nodup_iff_injective_get]
  rintro ⟨i, hi⟩ ⟨j, hj⟩ hij
  by_contra hne
  have hij' : i ≠ j := by
    intro he
    exact hne (Fin.ext he)
  have hflag : dupFlag inits i = false := by
    have hmem : dupFlag inits i ∈ dupFlags inits := by
      unfold dupFlags
      exact List.mem_map_of_mem _ (List.mem_range.mpr hi)
    have := List.any_eq_false.mp h _ hmem
    simpa using this
  have htrue : dupFlag inits i = true := by
    unfold dupFlag
    rw [List.any_eq_true]
    refine ⟨j, List.mem_range.mpr hj, ?_⟩
    have hgi : inits.getD i "" = inits.get ⟨i, hi⟩ := by
      rw [List.getD_eq_get?, List.get?_eq_get hi]; rfl
    have hgj : inits.getD j "" = inits.get ⟨j, hj⟩ := by
      rw [List.getD_eq_get?, List.get?_eq_get hj]; rfl
    rw [Bool.and_eq_true, bne_iff_ne, hgi, hgj, hij, beq_iff_eq]
    exact ⟨fun he => hij' he.symm, rfl⟩
  rw [hflag] at htrue
  cases htrue

theorem mkInitialsAux_ok {firsts : List String} :
    ∀ (fuel : Nat) (lasts : List String) (nlast : List Nat) (labels : List String),
      (mkInitialsAux firsts lasts nlast fuel).1 = .ok labels →
      labels.length = firsts.length ∧ (∀ x ∈ labels, x ≠ "") ∧ labels.Nodup := by
  intro fuel
  induction fuel with
  | zero =>
    intro lasts nlast labels h
    unfold mkInitialsAux at h
    cases hrow : mkRow firsts (stripAll lasts) nlast with
    | none => rw [hrow] at h; cases h
    | some inits => rw [hrow] at h; cases h
  | succ f ih =>
    intro lasts nlast labels h
    unfold mkInitialsAux at h
    cases hrow : mkRow firsts (stripAll lasts) nlast with
    | none => rw [hrow] at h; cases h
    | some inits =>
      rw [hrow] at h
      simp only at h
      by_cases hdup : (dupFlags inits).any (fun b => b) = true
      · rw [if_pos hdup] at h
        exact ih _ _ _ h
      · rw [if_neg hdup] at h
        cases h
        refine ⟨mkRow_length hrow, mkRow_ne_empty hrow, ?_⟩
        exact nodup_of_dupFlags_false (Bool.eq_false_iff.mpr hdup)

/-- C1: whenever `mk_initials` returns normally on parallel first/last
name lists, it yields exactly one label per input person (the returned
list has the input length, the i-th label being derived from the i-th
person), every label is non-empty, and the labels are pairwise distinct
(the loop only exits when the `duplicate` array is all false). -/
theorem mk_initials_ok_spec (firsts lasts labels : List String)
    (hlen : firsts.length = lasts.length)
    (hok : mk_initials firsts lasts = .ok labels) :
    labels.length = firsts.length ∧ (∀ x ∈ labels, x ≠ "") ∧ labels.Nodup := by
  exact mkInitialsAux_ok 10 lasts (List.replicate lasts.length 1) labels hok

/-- Witness for C1 at a concrete two-person input. -/
theorem mk_initials_ok_spec_witness :
    ((["John", "Ann"] : List String).length = (["Smith", "Jones"] : List String).length ∧
      mk_initials ["John", "Ann"] ["Smith", "Jones"] = .ok ["JS", "AJ"]) ∧
    ((["JS", "AJ"] : List String).length = (["John", "Ann"] : List String).length ∧
      (∀ x ∈ (["JS", "AJ"] : List String), x ≠ "") ∧ (["JS", "AJ"] : List String).Nodup) :=
  ⟨⟨by decide, by decide⟩,
    mk_initials_ok_spec ["John", "Ann"] ["Smith", "Jones"] ["JS", "AJ"] (by decide) (by decide)⟩

/-! ## Initials assignment: the iteration cap (claim C4) -/

theorem two_le_count_of_get_eq {α : Type} [DecidableEq α] :
    ∀ (l : List α) (i j : Nat) (hi : i < l.length) (hj : j < l.length),
      i < j → l.get ⟨i, hi⟩ = l.get ⟨j, hj⟩ → 2 ≤ l.count (l.get ⟨i, hi⟩) := by
  intro l
  induction l with
  | nil => intro i j hi; cases hi
  | cons x t ih =>
    intro i j hi hj hij heq
    match i, j with
    | 0, j' + 1 =>
      simp only [List.get] at heq ⊢
      have hj' : j' < t.length := Nat.lt_of_succ_lt_succ hj
      have hx : x ∈ t := by
        rw [heq]
        exact List.get_mem t _ hj'
      have h1 : 1 ≤ t.count x := List.count_pos_iff_mem.mpr hx
      rw [List.count_cons_self]
      omega
    | i' + 1, j' + 1 =>
      simp only [List.get] at heq ⊢
      have hi' : i' < t.length := Nat.lt_of_succ_lt_succ hi
      have hj' : j' < t.length := Nat.lt_of_succ_lt_succ hj
      have h2 := ih i' j' hi' hj' (Nat.lt_of_succ_lt_succ hij) heq
      calc 2 ≤ t.count (t.get ⟨i', hi'⟩) := h2
        _ ≤ (x :: t).count (t.get ⟨i', hi'⟩) := by
              rw [List.count_cons]
              omega

theorem count_le_one_of_unique_idx {α : Type} [DecidableEq α] :
    ∀ (l : List α) (x : α) (i : Nat),
      (∀ j (hj : j < l.length), l.get ⟨j, hj⟩ = x → j = i) → l.count x ≤ 1 := by
  intro l
  induction l with
  | nil => intro x i _; simp
  | cons y t ih =>
    intro x i huniq
    by_cases hyx : y = x
    · subst hyx
      have hzero : i = 0 := (huniq 0 (Nat.succ_pos _) rfl).symm
      have hnot : y ∉ t := by
        intro hmem
        rcases List.mem_iff_get.mp hmem with ⟨⟨j', hj'⟩, hget⟩
        have := huniq (j' + 1) (Nat.succ_lt_succ hj') hget
        omega
      rw [List.count_cons_self, List.count_eq_zero.mpr hnot]
    · rw [List.count_cons_of_ne (fun he => hyx he.symm)]
      match i with
      | 0 =>
        have hnot : x ∉ t := by
          intro hmem
          rcases List.mem_iff_get.mp hmem with ⟨⟨j', hj'⟩, hget⟩
          have := huniq (j' + 1) (Nat.succ_lt_succ hj') hget
          omega
        rw [List.count_eq_zero.mpr hnot]
        omega
      | i' + 1 =>
        exact ih x i' (fun j hj hget =>
          Nat.succ_injective (huniq (j + 1) (Nat.succ_lt_succ hj) hget))

theorem dupFlag_eq_count {l : List String} {i : Nat} (hi : i < l.length) :
    dupFlag l i = decide (2 ≤ l.count (l.get ⟨i, hi⟩)) := by
  have hgd : l.getD i "" = l.get ⟨i, hi⟩ := by
    rw [List.getD_eq_get?, List.get?_eq_get hi]; rfl
  by_cases hc : 2 ≤ l.count (l.get ⟨i, hi⟩)
  · rw [decide_eq_true hc]
    unfold dupFlag
    rw [List.any_eq_true]
    by_contra hno
    push_neg at hno
    have huniq : ∀ j (hj : j < l.length), l.get ⟨j, hj⟩ = l.get ⟨i, hi⟩ → j = i := by
      intro j hj hget
      by_contra hne
      have hgj : l.getD j "" = l.get ⟨j, hj⟩ := by
        rw [List.getD_eq_get?, List.get?_eq_get hj]; rfl
      have hP : (j != i && (l.getD i "" == l.getD j "")) = true := by
        rw [Bool.and_eq_true, bne_iff_ne, hgd, hgj, hget, beq_iff_eq]
        exact ⟨hne, rfl⟩
      exact hno j (List.mem_range.mpr hj) hP
    have := count_le_one_of_unique_idx l (l.get ⟨i, hi⟩) i huniq
    omega
  · rw [decide_eq_false hc]
    unfold dupFlag
    rw [Bool.eq_false_iff]
    intro hany
    rcases List.any_eq_true.mp hany with ⟨j, hjmem, hj⟩
    have hjlt : j < l.length := List.mem_range.mp hjmem
    have hgj : l.getD j "" = l.get ⟨j, hjlt⟩ := by
      rw [List.getD_eq_get?, List.get?_eq_get hjlt]; rfl
    rw [Bool.and_eq_true, bne_iff_ne, hgd, hgj, beq_iff_eq] at hj
    rcases hj with ⟨hne, heq⟩
    apply hc
    rcases Nat.lt_or_ge i j with hij | hij
    · exact two_le_count_of_get_eq l i j hi hjlt hij heq
    · have hij' : j < i := Nat.lt_of_le_of_ne hij hne
      have := two_le_count_of_get_eq l j i hjlt hi hij' heq.symm
      rw [heq]
      exact this

theorem dupFlags_eq_map (l : List String) :
    dupFlags l = l.map (fun x => decide (2 ≤ l.count x)) := by
  apply List.ext_get
  · simp [dupFlags]
  · intro n h1 h2
    have hn : n < l.length := by simpa [dupFlags] using h1
    rw [List.get_map]
    unfold dupFlags
    rw [List.get_map]
    have : (List.range l.length).get ⟨n, by simpa [dupFlags] using h1⟩ = n := List.get_range n _
    rw [this]
    exact dupFlag_eq_count hn

theorem maskSelect_map_pred (p : String → Bool) :
    ∀ l : List String, maskSelect l (l.map p) = l.filter p := by
  intro l
  induction l with
  | nil => rfl
  | cons x t ih =>
    unfold maskSelect at ih ⊢
    simp only [List.map_cons, List.zip_cons_cons, List.filter_cons]
    by_cases hp : p x = true
    · simp only [hp, if_true, List.map_cons, ih]
    · simp only [Bool.eq_false_iff.mpr hp |>.symm] at hp
      simp only [hp, Bool.false_eq_true, if_false, ih]

theorem maskSelect_dup_count {inits cols : List String}
    (hcols : cols = maskSelect inits (dupFlags inits)) :
    ∀ c ∈ cols, 2 ≤ cols.count c := by
  intro c hc
  rw [hcols, dupFlags_eq_map, maskSelect_map_pred] at hc ⊢
  have hmem := List.mem_filter.mp hc
  have hcnt : 2 ≤ inits.count c := of_decide_eq_true hmem.2
  have hcf := @List.count_filter String _ _
    (fun x => decide (2 ≤ inits.count x)) c inits hmem.2
  rw [hcf]
  exact hcnt

theorem dupFlags_length (inits : List String) :
    (dupFlags inits).length = inits.length := by simp [dupFlags]

theorem any_false_of_maskSelect_nil :
    ∀ (inits : List String) (dup : List Bool), dup.length = inits.length →
      maskSelect inits dup = [] → dup.any (fun b => b) = false := by
  intro inits
  induction inits with
  | nil =>
    intro dup hlen _
    rw [List.length_nil, List.length_eq_zero] at hlen
    subst hlen; rfl
  | cons x t ih =>
    intro dup hlen hmask
    match dup with
    | d :: ds =>
      unfold maskSelect at hmask
      rw [List.zip_cons_cons, List.filter_cons] at hmask
      by_cases hd : d = true
      · subst hd
        simp at hmask
      · have hd' : d = false := Bool.eq_false_iff.mpr hd
        subst hd'
        simp only [Bool.false_eq_true, if_false] at hmask
        have := ih ds (by simpa using hlen) hmask
        simpa using this

theorem aux_tooMany_shape {firsts : List String} :
    ∀ (fuel : Nat) (lasts : List String) (nlast : List Nat) (cols : List String),
      (mkInitialsAux firsts lasts nlast fuel).1 = .tooMany cols →
      ∃ inits, cols = maskSelect inits (dupFlags inits) := by
  intro fuel
  induction fuel with
  | zero =>
    intro lasts nlast cols h
    unfold mkInitialsAux at h
    cases hrow : mkRow firsts (stripAll lasts) nlast with
    | none => rw [hrow] at h; cases h
    | some inits =>
      rw [hrow] at h
      simp only at h
      cases h
      exact ⟨inits, rfl⟩
  | succ f ih =>
    intro lasts nlast cols h
    unfold mkInitialsAux at h
    cases hrow : mkRow firsts (stripAll lasts) nlast with
    | none => rw [hrow] at h; cases h
    | some inits =>
      rw [hrow] at h
      simp only at h
      by_cases hdup : (dupFlags inits).any (fun b => b) = true
      · rw [if_pos hdup] at h
        exact ih _ _ _ h
      · rw [if_neg hdup] at h
        cases h

theorem aux_ok_of_tooMany_nil {firsts : List String} :
    ∀ (fuel : Nat) (lasts : List String) (nlast : List Nat),
      (mkInitialsAux firsts lasts nlast fuel).1 = .tooMany [] →
      ∃ labels, (mkInitialsAux firsts lasts nlast (fuel + 1)).1 = .ok labels := by
  intro fuel
  induction fuel with
  | zero =>
    intro lasts nlast h
    unfold mkInitialsAux at h
    cases hrow : mkRow firsts (stripAll lasts) nlast with
    | none => rw [hrow] at h; cases h
    | some inits =>
      rw [hrow] at h
      simp only at h
      injection h with h'
      have hany : (dupFlags inits).any (fun b => b) = false :=
        any_false_of_maskSelect_nil inits (dupFlags inits) (dupFlags_length inits) h'
      refine ⟨inits, ?_⟩
      unfold mkInitialsAux
      rw [hrow]
      simp only
      rw [if_neg (by rw [hany]; intro hcon; cases hcon)]
  | succ f ih =>
    intro lasts nlast h
    unfold mkInitialsAux at h
    cases hrow : mkRow firsts (stripAll lasts) nlast with
    | none => rw [hrow] at h; cases h
    | some inits =>
      rw [hrow] at h
      simp only at h
      by_cases hdup : (dupFlags inits).any (fun b => b) = true
      · rw [if_pos hdup] at h
        rcases ih _ _ h with ⟨labels, hlab⟩
        refine ⟨labels, ?_⟩
        unfold mkInitialsAux
        rw [hrow]
        simp only
        rw [if_pos hdup]
        exact hlab
      · rw [if_neg hdup] at h
        cases h

/-- C4: if the widening never succeeds — no round count up to the
source's cap would let the loop exit normally — and no indexing error
occurs, then `mk_initials` fails after the fixed cap of widening rounds
(the source's `Nite > 10` check, modelled by the fuel-10 run) with a
non-empty list of colliding labels, each of which occurs at least twice
among the reported labels.  In particular the loop neither runs forever
(the round counter caps it structurally) nor returns a list containing
duplicate labels. -/
theorem mk_initials_cap_spec (firsts lasts : List String)
    (hok : ∀ fuel, fuel ≤ 11 →
      ((mkInitialsAux firsts lasts (List.replicate lasts.length 1) fuel).1).isOk = false)
    (herr : (mkInitialsAux firsts lasts (List.replicate lasts.length 1) 10).1 ≠ .indexError) :
    ∃ cols, mk_initials firsts lasts = .tooMany cols ∧ cols ≠ [] ∧
      ∀ c ∈ cols, 2 ≤ cols.count c := by
  cases hres : (mkInitialsAux firsts lasts (List.replicate lasts.length 1) 10).1 with
  | ok labels =>
    have hfalse := hok 10 (by omega)
    rw [hres] at hfalse
    simp [MkResult.isOk] at hfalse
  | indexError => exact absurd hres herr
  | tooMany cols =>
    refine ⟨cols, hres, ?_, ?_⟩
    · intro hnil
      subst hnil
      rcases aux_ok_of_tooMany_nil 10 _ _ hres with ⟨labels, hlab⟩
      have hfalse := hok 11 (le_refl _)
      rw [hlab] at hfalse
      simp [MkResult.isOk] at hfalse
    · rcases aux_tooMany_shape 10 _ _ _ hres with ⟨inits, hsh⟩
      exact maskSelect_dup_count hsh

/-- Witness for C4 at a two-person input with identical names, where no
amount of widening can separate the labels. -/
theorem mk_initials_cap_spec_witness :
    ((∀ fuel, fuel ≤ 11 →
        ((mkInitialsAux ["John", "John"] ["Smith", "Smith"]
          (List.replicate (["Smith", "Smith"] : List String).length 1) fuel).1).isOk = false) ∧
      (mkInitialsAux ["John", "John"] ["Smith", "Smith"]
        (List.replicate (["Smith", "Smith"] : List String).length 1) 10).1 ≠ .indexError) ∧
    (∃ cols, mk_initials ["John", "John"] ["Smith", "Smith"] = .tooMany cols ∧ cols ≠ [] ∧
      ∀ c ∈ cols, 2 ≤ cols.count c) :=
  ⟨⟨by decide, by decide⟩,
    mk_initials_cap_spec ["John", "John"] ["Smith", "Smith"] (by decide) (by decide)⟩

/-! ## Prefix stripping (claims C5 and C9) -/

/-- C5 counterexample: the two prefix tests are sequential `if`s, not
exclusive, so "De Da Silva" loses BOTH prefixes within the very first
round of a single call — not "exactly one such leading prefix".  The
value predicted by the claim (one prefix removed) would be "Da Silva". -/
theorem mk_initials_strip_counterexample :
    stripName "De Da Silva" = "Silva" ∧
    mkInitialsFinalLasts ["X"] ["De Da Silva"] = ["Silva"] ∧
    ¬ mkInitialsFinalLasts ["X"] ["De Da Silva"] = ["Da Silva"] := by
  exact ⟨by decide, by decide, by decide⟩

/-- C5 (amended): per widening round each last name loses at most one
leading "de " prefix and then — tested on the stripped remainder — at
most one leading "da " prefix, in that order (so a name such as
"de da X" loses two prefixes in one round); a name carrying neither
prefix is left unchanged, so stripping is idempotent exactly on names
whose remainder carries no further prefix; and a one-person call
performs exactly one stripping round. -/
theorem stripName_amended :
    (∀ ln : String, startsDe ln = false → startsDa ln = false → stripName ln = ln) ∧
    (∀ ln : String, startsDe ln = true →
      stripName ln = (if startsDa ⟨ln.data.drop 3⟩ then ⟨(ln.data.drop 3).drop 3⟩
                      else ⟨ln.data.drop 3⟩)) ∧
    (∀ ln : String, startsDe ln = false → startsDa ln = true →
      stripName ln = ⟨ln.data.drop 3⟩) ∧
    (∀ ln : String, startsDe (stripName ln) = false → startsDa (stripName ln) = false →
      stripName (stripName ln) = stripName ln) ∧
    (∀ f ln : String, mkInitialsFinalLasts [f] [ln] = [stripName ln]) := by
  have hbase : ∀ ln : String, startsDe ln = false → startsDa ln = false →
      stripName ln = ln := by
    intro ln hde hda
    unfold stripName
    unfold startsDe at hde
    unfold startsDa at hda
    rw [hde]
    simp only [Bool.false_eq_true, if_false]
    rw [hda]
    simp
  refine ⟨hbase, ?_, ?_, ?_, ?_⟩
  · intro ln hde
    unfold stripName
    unfold startsDe at hde
    rw [hde]
    simp only [if_true]
    unfold startsDa
    rfl
  · intro ln hde hda
    unfold stripName
    unfold startsDe at hde
    unfold startsDa at hda
    rw [hde]
    simp only [Bool.false_eq_true, if_false]
    rw [hda]
    simp
  · intro ln hde hda
    exact hbase _ hde hda
  · intro f ln
    unfold mkInitialsFinalLasts mkInitialsAux
    simp only [List.length_singleton, List.replicate_one]
    cases hone : mkOne f (stripName ln) 1 with
    | none =>
      have hrow : mkRow [f] (stripAll [ln]) [1] = none := by
        simp [mkRow, stripAll, hone]
      rw [hrow]
      simp [stripAll]
    | some x =>
      have hrow : mkRow [f] (stripAll [ln]) [1] = some [x] := by
        simp [mkRow, stripAll, hone]
      rw [hrow]
      have hdf : dupFlags [x] = [false] := by
        have hr1 : List.range 1 = [0] := rfl
        simp [dupFlags, dupFlag, hr1]
      simp [hdf, stripAll]

/-- Witness for the amended C5 at concrete inputs: an unprefixed name is
left alone (first conjunct) and a one-person call strips once (last
conjunct). -/
theorem stripName_amended_witness :
    (startsDe "Souza" = false ∧ startsDa "Souza" = false ∧ stripName "Souza" = "Souza") ∧
    mkInitialsFinalLasts ["X"] ["de Souza"] = [stripName "de Souza"] :=
  ⟨⟨by decide, by decide, stripName_amended.1 "Souza" (by decide) (by decide)⟩,
    stripName_amended.2.2.2.2 "X" "de Souza"⟩

theorem aux_final_firsts {firsts : List String} :
    ∀ (fuel : Nat) (lasts : List String) (nlast : List Nat),
      (mkInitialsAux firsts lasts nlast fuel).2.1 = firsts := by
  intro fuel
  induction fuel with
  | zero =>
    intro lasts nlast
    unfold mkInitialsAux
    cases hrow : mkRow firsts (stripAll lasts) nlast <;> simp [hrow]
  | succ f ih =>
    intro lasts nlast
    unfold mkInitialsAux
    cases hrow : mkRow firsts (stripAll lasts) nlast with
    | none => simp [hrow]
    | some inits =>
      simp only [hrow]
      by_cases hdup : (dupFlags inits).any (fun b => b) = true
      · rw [if_pos hdup]
        exact ih _ _
      · rw [if_neg hdup]

theorem aux_final_lasts {firsts : List String} :
    ∀ (fuel : Nat) (lasts : List String) (nlast : List Nat),
      ∃ k, 1 ≤ k ∧ (mkInitialsAux firsts lasts nlast fuel).2.2 = stripAll^[k] lasts := by
  intro fuel
  induction fuel with
  | zero =>
    intro lasts nlast
    refine ⟨1, le_refl 1, ?_⟩
    unfold mkInitialsAux
    cases hrow : mkRow firsts (stripAll lasts) nlast <;> simp [hrow]
  | succ f ih =>
    intro lasts nlast
    unfold mkInitialsAux
    cases hrow : mkRow firsts (stripAll lasts) nlast with
    | none => exact ⟨1, le_refl 1, by simp [hrow]⟩
    | some inits =>
      simp only [hrow]
      by_cases hdup : (dupFlags inits).any (fun b => b) = true
      · rw [if_pos hdup]
        rcases ih (stripAll lasts) (widen nlast (dupFlags inits)) with ⟨k, hk, heq⟩
        refine ⟨k + 1, by omega, ?_⟩
        rw [Function.iterate_succ_apply]
        exact heq
      · rw [if_neg hdup]
        exact ⟨1, le_refl 1, by simp⟩

theorem stripAll_iterate :
    ∀ (k : Nat) (lasts : List String), stripAll^[k] lasts = lasts.map (stripName^[k]) := by
  intro k
  induction k with
  | zero => intro lasts; simp
  | succ n ih =>
    intro lasts
    rw [Function.iterate_succ_apply, ih (stripAll lasts)]
    unfold stripAll
    rw [List.map_map]
    congr 1

theorem stripName_length_le (ln : String) :
    (stripName ln).data.length ≤ ln.data.length := by
  unfold stripName
  by_cases h1 : "de ".data.isPrefixOf (pyLower ln).data
  · rw [if_pos h1]
    by_cases h2 : "da ".data.isPrefixOf (pyLower (⟨ln.data.drop 3⟩ : String)).data
    · rw [if_pos h2]
      simp only [List.length_drop]
      omega
    · rw [if_neg h2]
      simp only [List.length_drop]
      omega
  · rw [if_neg h1]
    by_cases h2 : "da ".data.isPrefixOf (pyLower ln).data
    · rw [if_pos h2]
      simp only [List.length_drop]
      omega
    · rw [if_neg h2]

theorem stripName_length_lt (ln : String)
    (h : startsDe ln = true ∨ startsDa ln = true) :
    (stripName ln).data.length < ln.data.length := by
  have hlen : (pyLower ln).data.length = ln.data.length := by
    unfold pyLower
    simp
  unfold stripName
  rcases h with hde | hda
  · unfold startsDe at hde
    have h3 : 3 ≤ ln.data.length := by
      have := ( List.isPrefixOf_iff_prefix.mp hde).length_le
      simpa [hlen] using this
    rw [if_pos hde]
    by_cases h2 : "da ".data.isPrefixOf (pyLower (⟨ln.data.drop 3⟩ : String)).data
    · rw [if_pos h2]
      simp only [List.length_drop]
      omega
    · rw [if_neg h2]
      simp only [List.length_drop]
      omega
  · unfold startsDa at hda
    have h3 : 3 ≤ ln.data.length := by
      have := ( List.isPrefixOf_iff_prefix.mp hda).length_le
      simpa [hlen] using this
    by_cases h1 : "de ".data.isPrefixOf (pyLower ln).data
    · rw [if_pos h1]
      by_cases h2 : "da ".data.isPrefixOf (pyLower (⟨ln.data.drop 3⟩ : String)).data
      · rw [if_pos h2]
        simp only [List.length_drop]
        omega
      · rw [if_neg h2]
        simp only [List.length_drop]
        omega
    · rw [if_neg h1]
      rw [if_pos hda]
      simp only [List.length_drop]
      omega

theorem stripName_iterate_length_le :
    ∀ (k : Nat) (x : String), (stripName^[k] x).data.length ≤ x.data.length := by
  intro k
  induction k with
  | zero => intro x; simp
  | succ n ih =>
    intro x
    rw [Function.iterate_succ_apply]
    exact le_trans (ih (stripName x)) (stripName_length_le x)

/-- C9: `mk_initials` mutates its `last_names` argument in place: after
any call the caller's array holds the (possibly repeatedly) stripped
names — one full stripping round per loop round, at least one round — so
a last name that began with "de " or "da " (case-insensitively) no
longer holds its original value; the `first_names` argument is returned
to the caller unchanged (the source never assigns to it). -/
theorem mk_initials_mutates_lasts (firsts lasts : List String) :
    mkInitialsFinalFirsts firsts lasts = firsts ∧
    (∃ k, 1 ≤ k ∧ mkInitialsFinalLasts firsts lasts = stripAll^[k] lasts) ∧
    ∀ i (hi : i < lasts.length),
      (startsDe (lasts.get ⟨i, hi⟩) = true ∨ startsDa (lasts.get ⟨i, hi⟩) = true) →
      (mkInitialsFinalLasts firsts lasts).getD i "" ≠ lasts.get ⟨i, hi⟩ := by
  refine ⟨aux_final_firsts 10 lasts _, aux_final_lasts 10 lasts _, ?_⟩
  intro i hi hpre
  rcases @aux_final_lasts firsts 10 lasts (List.replicate lasts.length 1)
    with ⟨k, hk, heq⟩
  have hfin : mkInitialsFinalLasts firsts lasts = lasts.map (stripName^[k]) := by
    unfold mkInitialsFinalLasts
    rw [heq, stripAll_iterate]
  rw [hfin]
  have hmi : i < (lasts.map (stripName^[k])).length := by simpa using hi
  have hgd : (lasts.map (stripName^[k])).getD i "" = stripName^[k] (lasts.get ⟨i, hi⟩) := by
    rw [List.getD_eq_get?, List.get?_eq_get hmi]
    simp [List.get_map]
  rw [hgd]
  intro hcon
  have hlt : (stripName^[k] (lasts.get ⟨i, hi⟩)).data.length <
      (lasts.get ⟨i, hi⟩).data.length := by
    match k, hk with
    | n + 1, _ =>
      rw [Function.iterate_succ_apply]
      exact lt_of_le_of_lt (stripName_iterate_length_le n _) (stripName_length_lt _ hpre)
  rw [hcon] at hlt
  omega

/-- Witness for C9 at a one-person input whose last name carries a
"de " prefix. -/
theorem mk_initials_mutates_lasts_witness :
    mkInitialsFinalFirsts ["J"] ["de Silva"] = ["J"] ∧
    (∃ k, 1 ≤ k ∧ mkInitialsFinalLasts ["J"] ["de Silva"] = stripAll^[k] ["de Silva"]) ∧
    ∀ i (hi : i < (["de Silva"] : List String).length),
      (startsDe ((["de Silva"] : List String).get ⟨i, hi⟩) = true ∨
        startsDa ((["de Silva"] : List String).get ⟨i, hi⟩) = true) →
      (mkInitialsFinalLasts ["J"] ["de Silva"]).getD i "" ≠
        (["de Silva"] : List String).get ⟨i, hi⟩ :=
  mk_initials_mutates_lasts ["J"] ["de Silva"]

/-! ## Partiality on empty name strings (claim C10) -/

/-- C10 counterexample: an empty LAST name does NOT raise — the last name
is accessed through Python slices (`[0:Nlast]`), which are total — so
`mk_initials` returns a label made of the first-name part alone instead
of raising an indexing error. -/
theorem mk_initials_empty_last_counterexample :
    mk_initials ["John"] [""] = .ok ["J"] := by decide

theorem mkFirstInitial_empty : mkFirstInitial "" = none := by decide

theorem mkRow_none_of_empty_first :
    ∀ (fns lns : List String) (ws : List Nat), "" ∈ fns → mkRow fns lns ws = none := by
  intro fns
  induction fns with
  | nil => intro lns ws h; cases h
  | cons fn fns ih =>
    intro lns ws hmem
    match lns, ws with
    | [], _ => rfl
    | _ :: _, [] => rfl
    | ln :: lns, w :: ws =>
      rcases List.mem_cons.mp hmem with he | hm
      · subst he
        have hone : mkOne "" ln w = none := by
          unfold mkOne
          rw [mkFirstInitial_empty]
          rfl
        unfold mkRow
        rw [hone]
      · have hrest := ih lns ws hm
        unfold mkRow
        rw [hrest]
        cases mkOne fn ln w <;> rfl

/-- C10 (amended): `mk_initials` is partial on empty FIRST names only —
it indexes the first character of the first-name token(s), so an empty
first name anywhere raises an indexing error; last names are accessed by
slicing, so an empty last name never contributes a failure and the label
degenerates to the first-name part alone. -/
theorem mk_initials_partial_amended :
    (∀ firsts lasts : List String, firsts.length = lasts.length → "" ∈ firsts →
      mk_initials firsts lasts = .indexError) ∧
    (∀ fn : String, ∀ w : Nat, mkOne fn "" w = mkFirstInitial fn) := by
  constructor
  · intro firsts lasts _ hmem
    unfold mk_initials mkInitialsAux
    rw [mkRow_none_of_empty_first firsts (stripAll lasts)
      (List.replicate lasts.length 1) hmem]
  · intro fn w
    have hlp : mkLastPart "" w = "" := by
      have h1 : ("" : String).data.contains ' ' = false := rfl
      have h2 : ("" : String).data.contains '-' = false := rfl
      unfold mkLastPart
      rw [h1, h2]
      simp
    unfold mkOne
    rw [hlp]
    cases hfi : mkFirstInitial fn with
    | none => rfl
    | some fi =>
      simp only [Option.map_some']
      congr 1
      apply String.ext
      rw [String.data_append]
      simp

/-- Witness for the amended C10: a roster whose second first name is
empty raises, through the theorem's first conjunct. -/
theorem mk_initials_partial_amended_witness :
    ((["Ann", ""] : List String).length = (["Smith", "Jones"] : List String).length ∧
      "" ∈ (["Ann", ""] : List String)) ∧
    mk_initials ["Ann", ""] ["Smith", "Jones"] = .indexError :=
  ⟨⟨by decide, by decide⟩,
    mk_initials_partial_amended.1 ["Ann", ""] ["Smith", "Jones"] (by decide) (by decide)⟩

/-! ## Fuzzy matcher: best-entry selection and threshold (claim C2) -/

theorem extractOneAux_spec (scorer : String → String → ℚ) (q : String) :
    ∀ (cs : List String) (i : Nat) (best : String × ℚ × Nat),
      (extractOneAux scorer q cs i best = best ∧
        ∀ j (hj : j < cs.length), scorer q (cs.get ⟨j, hj⟩) ≤ best.2.1) ∨
      (∃ j, ∃ hj : j < cs.length,
        extractOneAux scorer q cs i best =
          (cs.get ⟨j, hj⟩, scorer q (cs.get ⟨j, hj⟩), i + j) ∧
        best.2.1 < scorer q (cs.get ⟨j, hj⟩) ∧
        (∀ k (hk : k < cs.length),
          scorer q (cs.get ⟨k, hk⟩) ≤ scorer q (cs.get ⟨j, hj⟩)) ∧
        (∀ k (hk : k < cs.length), k < j →
          scorer q (cs.get ⟨k, hk⟩) < scorer q (cs.get ⟨j, hj⟩))) := by
  intro cs
  induction cs with
  | nil =>
    intro i best
    left
    exact ⟨rfl, fun j hj => absurd hj (Nat.not_lt_zero j)⟩
  | cons c cs ih =>
    intro i best
    by_cases hlt : best.2.1 < scorer q c
    · have haux : extractOneAux scorer q (c :: cs) i best =
          extractOneAux scorer q cs (i + 1) (c, scorer q c, i) := by
        conv_lhs => unfold extractOneAux
        rw [if_pos hlt]
      rcases ih (i + 1) (c, scorer q c, i) with ⟨heq, hle⟩ | ⟨j, hj, heq, hlt2, hmax, hstrict⟩
      · right
        refine ⟨0, Nat.succ_pos _, ?_, ?_, ?_, ?_⟩
        · rw [haux, heq]
          simp
        · exact hlt
        · intro k hk
          match k with
          | 0 => exact le_refl _
          | k' + 1 => exact hle k' (Nat.lt_of_succ_lt_succ hk)
        · intro k hk hk0
          exact absurd hk0 (Nat.not_lt_zero k)
      · right
        have hs : (c, scorer q c, i).2.1 = scorer q c := rfl
        rw [hs] at hlt2
        refine ⟨j + 1, Nat.succ_lt_succ hj, ?_, lt_trans hlt hlt2, ?_, ?_⟩
        · rw [haux, heq]
          have : i + 1 + j = i + (j + 1) := by omega
          rw [this]
          rfl
        · intro k hk
          match k with
          | 0 => exact le_of_lt hlt2
          | k' + 1 => exact hmax k' (Nat.lt_of_succ_lt_succ hk)
        · intro k hk hkj
          match k with
          | 0 => exact hlt2
          | k' + 1 => exact hstrict k' (Nat.lt_of_succ_lt_succ hk) (Nat.lt_of_succ_lt_succ hkj)
    · have haux : extractOneAux scorer q (c :: cs) i best =
          extractOneAux scorer q cs (i + 1) best := by
        conv_lhs => unfold extractOneAux
        rw [if_neg hlt]
      rcases ih (i + 1) best with ⟨heq, hle⟩ | ⟨j, hj, heq, hlt2, hmax, hstrict⟩
      · left
        refine ⟨by rw [haux, heq], ?_⟩
        intro k hk
        match k with
        | 0 => exact le_of_not_lt hlt
        | k' + 1 => exact hle k' (Nat.lt_of_succ_lt_succ hk)
      · right
        refine ⟨j + 1, Nat.succ_lt_succ hj, ?_, hlt2, ?_, ?_⟩
        · rw [haux, heq]
          have : i + 1 + j = i + (j + 1) := by omega
          rw [this]
          rfl
        · intro k hk
          match k with
          | 0 => exact le_of_lt (lt_of_le_of_lt (le_of_not_lt hlt) hlt2)
          | k' + 1 => exact hmax k' (Nat.lt_of_succ_lt_succ hk)
        · intro k hk hkj
          match k with
          | 0 => exact lt_of_le_of_lt (le_of_not_lt hlt) hlt2
          | k' + 1 => exact hstrict k' (Nat.lt_of_succ_lt_succ hk) (Nat.lt_of_succ_lt_succ hkj)

theorem extractOne_spec (scorer : String → String → ℚ) (q : String) :
    ∀ (choices : List String), choices ≠ [] →
      ∃ sc idx, ∃ hidx : idx < choices.length,
        extractOne scorer q choices = some (choices.get ⟨idx, hidx⟩, sc, idx) ∧
        sc = scorer q (choices.get ⟨idx, hidx⟩) ∧
        (∀ j (hj : j < choices.length), scorer q (choices.get ⟨j, hj⟩) ≤ sc) ∧
        (∀ j (hj : j < choices.length), j < idx → scorer q (choices.get ⟨j, hj⟩) < sc) := by
  intro choices hne
  match choices with
  | c :: cs =>
    have hc : extractOne scorer q (c :: cs) =
        some (extractOneAux scorer q cs 1 (c, scorer q c, 0)) := rfl
    rcases extractOneAux_spec scorer q cs 1 (c, scorer q c, 0)
      with ⟨heq, hle⟩ | ⟨j, hj, heq, hlt2, hmax, hstrict⟩
    · refine ⟨scorer q c, 0, Nat.succ_pos _, ?_, rfl, ?_, ?_⟩
      · rw [hc, heq]
        rfl
      · intro j hjlt
        match j with
        | 0 => exact le_refl _
        | j' + 1 => exact hle j' (Nat.lt_of_succ_lt_succ hjlt)
      · intro j hjlt hj0
        exact absurd hj0 (Nat.not_lt_zero j)
    · have hs : (c, scorer q c, 0).2.1 = scorer q c := rfl
      rw [hs] at hlt2
      refine ⟨scorer q (cs.get ⟨j, hj⟩), j + 1, Nat.succ_lt_succ hj, ?_, rfl, ?_, ?_⟩
      · rw [hc, heq]
        have : 1 + j = j + 1 := by omega
        rw [this]
        rfl
      · intro k hk
        match k with
        | 0 => exact le_of_lt hlt2
        | k' + 1 => exact hmax k' (Nat.lt_of_succ_lt_succ hk)
      · intro k hk hkj
        match k with
        | 0 => exact hlt2
        | k' + 1 => exact hstrict k' (Nat.lt_of_succ_lt_succ hk) (Nat.lt_of_succ_lt_succ hkj)

/-- C2: against a non-empty roster, each input name is matched to the
single highest-scoring roster entry (ties keep the earliest entry: all
strictly earlier entries have strictly lower scores), and the emitted
short-code is that entry's short-code exactly when the best score is
strictly above `score_min` (default `SCORE_MIN = 80`); when the best
score is at or below `score_min` the short-code is the "NO MATCH"
sentinel.  The third-party scorer and the Unicode normalizer enter as
parameters. -/
theorem match_threshold_spec (scorer : String → String → ℚ) (norm : String → String)
    (roster : List RosterRow) (scoreMin : ℚ) (name : String) (hne : roster ≠ []) :
    SCORE_MIN = 80 ∧
    ∃ sc idx, ∃ hidx : idx < roster.length,
      (∃ row, matchOne scorer norm roster scoreMin name = some row ∧
        row.score = sc ∧ row.id = idx ∧
        row.matchedAuthor = (roster.get ⟨idx, hidx⟩).author ∧
        (scoreMin < sc → row.shortname = (roster.get ⟨idx, hidx⟩).shortname) ∧
        (sc ≤ scoreMin → row.shortname = "NO MATCH")) ∧
      sc = scorer (norm name) (norm (roster.get ⟨idx, hidx⟩).author) ∧
      (∀ j (hj : j < roster.length),
        scorer (norm name) (norm (roster.get ⟨j, hj⟩).author) ≤ sc) ∧
      (∀ j (hj : j < roster.length), j < idx →
        scorer (norm name) (norm (roster.get ⟨j, hj⟩).author) < sc) := by
  refine ⟨rfl, ?_⟩
  have hmne : roster.map (fun r => norm r.author) ≠ [] := by
    intro hcon
    exact hne (List.map_eq_nil.mp hcon)
  rcases extractOne_spec scorer (norm name) (roster.map (fun r => norm r.author)) hmne
    with ⟨sc, idx, hidx, hext, hsc, hmax, hstrict⟩
  have hlen : (roster.map (fun r => norm r.author)).length = roster.length := by simp
  have hidx' : idx < roster.length := by rw [hlen] at hidx; exact hidx
  have hget : ∀ (j : Nat) (hjm : j < (roster.map (fun r => norm r.author)).length)
      (hj : j < roster.length),
      (roster.map (fun r => norm r.author)).get ⟨j, hjm⟩ =
        norm (roster.get ⟨j, hj⟩).author := by
    intro j hjm hj
    rw [List.get_map]
  have hgd : roster.getD idx ⟨"", ""⟩ = roster.get ⟨idx, hidx'⟩ := by
    rw [List.getD_eq_get?, List.get?_eq_get hidx']
    rfl
  have hmatch : matchOne scorer norm roster scoreMin name =
      some { inputName := name,
             matchedAuthor := (roster.getD idx ⟨"", ""⟩).author,
             shortname := if scoreMin < sc then (roster.getD idx ⟨"", ""⟩).shortname
                          else "NO MATCH",
             score := sc,
             id := idx } := by
    unfold matchOne
    rw [hext]
  refine ⟨sc, idx, hidx', ⟨_, hmatch, rfl, rfl, ?_, ?_, ?_⟩, ?_, ?_, ?_⟩
  · simp only [hgd]
  · intro hgt
    simp only [hgd, if_pos hgt]
  · intro hle
    simp only [hgd, if_neg (not_lt.mpr hle)]
  · rw [hsc, hget idx hidx hidx']
  · intro j hj
    have hjm : j < (roster.map (fun r => norm r.author)).length := by
      rw [hlen]; exact hj
    have := hmax j hjm
    rw [hget j hjm hj] at this
    exact this
  · intro j hj hjlt
    have hjm : j < (roster.map (fun r => norm r.author)).length := by
      rw [hlen]; exact hj
    have := hstrict j hjm hjlt
    rw [hget j hjm hj] at this
    exact this

/-- Witness for C2 at a concrete two-entry roster matched with a trivial
equality scorer and the identity normalizer. -/
theorem match_threshold_spec_witness :
    (([⟨"alice", "AL"⟩, ⟨"bob", "BO"⟩] : List RosterRow) ≠ []) ∧
    (SCORE_MIN = 80 ∧
      ∃ sc idx, ∃ hidx : idx < ([⟨"alice", "AL"⟩, ⟨"bob", "BO"⟩] : List RosterRow).length,
        (∃ row, matchOne (fun a b => if a == b then (100 : ℚ) else 0) (fun s => s)
            [⟨"alice", "AL"⟩, ⟨"bob", "BO"⟩] 80 "bob" = some row ∧
          row.score = sc ∧ row.id = idx ∧
          row.matchedAuthor =
            (([⟨"alice", "AL"⟩, ⟨"bob", "BO"⟩] : List RosterRow).get ⟨idx, hidx⟩).author ∧
          ((80 : ℚ) < sc → row.shortname =
            (([⟨"alice", "AL"⟩, ⟨"bob", "BO"⟩] : List RosterRow).get ⟨idx, hidx⟩).shortname) ∧
          (sc ≤ (80 : ℚ) → row.shortname = "NO MATCH")) ∧
        sc = (fun a b => if a == b then (100 : ℚ) else 0) ((fun s => s) "bob")
          ((fun s => s) (([⟨"alice", "AL"⟩, ⟨"bob", "BO"⟩] : List RosterRow).get
            ⟨idx, hidx⟩).author) ∧
        (∀ j (hj : j < ([⟨"alice", "AL"⟩, ⟨"bob", "BO"⟩] : List RosterRow).length),
          (fun a b => if a == b then (100 : ℚ) else 0) ((fun s => s) "bob")
            ((fun s => s) (([⟨"alice", "AL"⟩, ⟨"bob", "BO"⟩] : List RosterRow).get
              ⟨j, hj⟩).author) ≤ sc) ∧
        (∀ j (hj : j < ([⟨"alice", "AL"⟩, ⟨"bob", "BO"⟩] : List RosterRow).length), j < idx →
          (fun a b => if a == b then (100 : ℚ) else 0) ((fun s => s) "bob")
            ((fun s => s) (([⟨"alice", "AL"⟩, ⟨"bob", "BO"⟩] : List RosterRow).get
              ⟨j, hj⟩).author) < sc)) :=
  ⟨by decide,
    match_threshold_spec (fun a b => if a == b then (100 : ℚ) else 0) (fun s => s)
      [⟨"alice", "AL"⟩, ⟨"bob", "BO"⟩] 80 "bob" (by decide)⟩

/-! ## Fuzzy matcher: totality and degradation (claim C3) -/

/-- C3 counterexample: against an EMPTY roster, `process.extractOne`
returns `None` and the source's tuple unpacking raises `TypeError`
(modelled by `none`), so the matcher does NOT produce a result row for
every roster — the claim's "for any roster" fails. -/
theorem xmatch_empty_roster_counterexample :
    matchOne (fun _ _ => (0 : ℚ)) (fun s => s) [] 80 "Alice" = none ∧
    xmatchAll (fun _ _ => (0 : ℚ)) (fun s => s) [] 80 (parseCoauthors "Alice") = none := by
  exact ⟨rfl, by decide⟩

theorem matchOne_total (scorer : String → String → ℚ) (norm : String → String)
    (roster : List RosterRow) (scoreMin : ℚ) (name : String) (hne : roster ≠ []) :
    ∃ row, matchOne scorer norm roster scoreMin name = some row ∧
      row.inputName = name ∧
      (row.shortname = "NO MATCH" ∨ ∃ r ∈ roster, row.shortname = r.shortname) := by
  have hmne : roster.map (fun r => norm r.author) ≠ [] := by
    intro hcon
    exact hne (List.map_eq_nil.mp hcon)
  rcases extractOne_spec scorer (norm name) (roster.map (fun r => norm r.author)) hmne
    with ⟨sc, idx, hidx, hext, _, _, _⟩
  have hidx' : idx < roster.length := by simpa using hidx
  have hgd : roster.getD idx ⟨"", ""⟩ = roster.get ⟨idx, hidx'⟩ := by
    rw [List.getD_eq_get?, List.get?_eq_get hidx']
    rfl
  have hmatch : matchOne scorer norm roster scoreMin name =
      some { inputName := name,
             matchedAuthor := (roster.getD idx ⟨"", ""⟩).author,
             shortname := if scoreMin < sc then (roster.getD idx ⟨"", ""⟩).shortname
                          else "NO MATCH",
             score := sc,
             id := idx } := by
    unfold matchOne
    rw [hext]
  refine ⟨_, hmatch, rfl, ?_⟩
  by_cases hgt : scoreMin < sc
  · right
    refine ⟨roster.get ⟨idx, hidx'⟩, List.get_mem roster idx hidx', ?_⟩
    simp only [hgd, if_pos hgt]
  · left
    simp only [if_neg hgt]

theorem xmatchAll_total (scorer : String → String → ℚ) (norm : String → String)
    (roster : List RosterRow) (scoreMin : ℚ) (hne : roster ≠ []) :
    ∀ names : List String,
      ∃ rows, xmatchAll scorer norm roster scoreMin names = some rows ∧
        rows.length = names.length ∧
        (∀ i (hi : i < rows.length) (hi' : i < names.length),
          (rows.get ⟨i, hi⟩).inputName = names.get ⟨i, hi'⟩) ∧
        ∀ row ∈ rows, row.shortname = "NO MATCH" ∨
          ∃ r ∈ roster, row.shortname = r.shortname := by
  intro names
  induction names with
  | nil =>
    refine ⟨[], rfl, rfl, ?_, ?_⟩
    · intro i hi
      exact absurd hi (Nat.not_lt_zero i)
    · intro row hrow
      cases hrow
  | cons n ns ih =>
    rcases matchOne_total scorer norm roster scoreMin n hne with ⟨row, hrow, hname, hsn⟩
    rcases ih with ⟨rows, hrows, hlen, hcorr, hall⟩
    refine ⟨row :: rows, ?_, by simp [hlen], ?_, ?_⟩
    · unfold xmatchAll
      rw [hrow, hrows]
    · intro i hi hi'
      match i with
      | 0 => exact hname
      | i + 1 =>
        exact hcorr i (Nat.lt_of_succ_lt_succ hi) (Nat.lt_of_succ_lt_succ hi')
    · intro r hr
      rcases List.mem_cons.mp hr with he | hm
      · subst he
        exact hsn
      · exact hall r hm

/-- C3 (amended): for any scorer, normalizer and threshold, and any
NON-EMPTY roster, every name retained by the input parser (stripped,
length at least 2) yields exactly one result row, in input order, whose
short-code is either a roster short-code or the "NO MATCH" sentinel —
the matching loop itself never fails.  (Names of length below 2 are
dropped by the parser, and an empty roster raises; both restrictions
are what the counterexample forces.) -/
theorem xmatch_never_raises_amended (scorer : String → String → ℚ)
    (norm : String → String) (roster : List RosterRow) (scoreMin : ℚ)
    (input : String) (hne : roster ≠ []) :
    ∃ rows, xmatchAll scorer norm roster scoreMin (parseCoauthors input) = some rows ∧
      rows.length = (parseCoauthors input).length ∧
      (∀ i (hi : i < rows.length) (hi' : i < (parseCoauthors input).length),
        (rows.get ⟨i, hi⟩).inputName = (parseCoauthors input).get ⟨i, hi'⟩) ∧
      ∀ row ∈ rows, row.shortname = "NO MATCH" ∨
        ∃ r ∈ roster, row.shortname = r.shortname :=
  xmatchAll_total scorer norm roster scoreMin hne (parseCoauthors input)

/-- Witness for the amended C3 on a concrete comma-separated input with
one sub-threshold name, against a one-entry roster. -/
theorem xmatch_never_raises_amended_witness :
    (([⟨"alice", "AL"⟩] : List RosterRow) ≠ []) ∧
    (∃ rows, xmatchAll (fun a b => if a == b then (100 : ℚ) else 0) (fun s => s)
        [⟨"alice", "AL"⟩] 80 (parseCoauthors "alice, zed") = some rows ∧
      rows.length = (parseCoauthors "alice, zed").length ∧
      (∀ i (hi : i < rows.length) (hi' : i < (parseCoauthors "alice, zed").length),
        (rows.get ⟨i, hi⟩).inputName = (parseCoauthors "alice, zed").get ⟨i, hi'⟩) ∧
      ∀ row ∈ rows, row.shortname = "NO MATCH" ∨
        ∃ r ∈ ([⟨"alice", "AL"⟩] : List RosterRow), row.shortname = r.shortname) :=
  ⟨by decide,
    xmatch_never_raises_amended (fun a b => if a == b then (100 : ℚ) else 0) (fun s => s)
      [⟨"alice", "AL"⟩] 80 "alice, zed" (by decide)⟩

/-! ## AANDA rendering: first-seen order and tag consistency (claim C6) -/

theorem splitChar_ne_nil (sep : Char) : ∀ cs : List Char, splitChar sep cs ≠ [] := by
  intro cs
  cases cs with
  | nil => intro h; cases h
  | cons c t =>
    unfold splitChar
    cases hsp : splitChar sep t with
    | nil => intro h; cases h
    | cons h r =>
      show (if (c == sep) = true then [] :: h :: r else (c :: h) :: r) ≠ []
      by_cases hc : (c == sep) = true
      · rw [if_pos hc]; intro h'; cases h'
      · rw [if_neg hc]; intro h'; cases h'

theorem splitStr_ne_nil (sep : Char) (s : String) : splitStr sep s ≠ [] := by
  unfold splitStr
  intro h
  exact splitChar_ne_nil sep s.data (List.map_eq_nil.mp h)

theorem orderedAffiliations_eq_foldl (authors : List PaperAuthor) :
    orderedAffiliations authors = (affilStream authors).foldl insertNew [] := by
  suffices h : ∀ (acc : List String),
      authors.foldl
        (fun acc2 au =>
          (splitStr ',' au.affiliations).foldl
            (fun acc3 a => let s := trimStr a; if s ∈ acc3 then acc3 else acc3 ++ [s]) acc2)
        acc
      = (affilStream authors).foldl insertNew acc by
    exact h []
  unfold affilStream
  induction authors with
  | nil => intro acc; rfl
  | cons au rest ih =>
    intro acc
    rw [List.map_cons, List.flatten_cons, List.foldl_append, List.foldl_cons]
    rw [List.foldl_map]
    exact ih _

theorem foldl_insertNew_eq_firstNew :
    ∀ (l acc : List String), l.foldl insertNew acc = acc ++ firstNew l acc := by
  intro l
  induction l with
  | nil => intro acc; simp [firstNew]
  | cons a t ih =>
    intro acc
    rw [List.foldl_cons]
    by_cases ha : a ∈ acc
    · have hins : insertNew acc a = acc := by
        unfold insertNew
        rw [if_pos ha]
      have hfn : firstNew (a :: t) acc = firstNew t acc := by
        conv_lhs => unfold firstNew
        rw [if_pos ha]
      rw [hins, hfn]
      exact ih acc
    · have hins : insertNew acc a = acc ++ [a] := by
        unfold insertNew
        rw [if_neg ha]
      have hfn : firstNew (a :: t) acc = a :: firstNew t (acc ++ [a]) := by
        conv_lhs => unfold firstNew
        rw [if_neg ha]
      rw [hins, hfn, ih (acc ++ [a])]
      simp

theorem firstNew_subset :
    ∀ (l seen : List String) (x : String), x ∈ firstNew l seen → x ∈ l ∧ x ∉ seen := by
  intro l
  induction l with
  | nil => intro seen x h; cases h
  | cons a t ih =>
    intro seen x h
    unfold firstNew at h
    by_cases ha : a ∈ seen
    · rw [if_pos ha] at h
      rcases ih seen x h with ⟨h1, h2⟩
      exact ⟨List.mem_cons_of_mem a h1, h2⟩
    · rw [if_neg ha] at h
      rcases List.mem_cons.mp h with he | hm
      · subst he
        exact ⟨List.mem_cons_self x t, ha⟩
      · rcases ih (seen ++ [a]) x hm with ⟨h1, h2⟩
        refine ⟨List.mem_cons_of_mem a h1, ?_⟩
        intro hx
        exact h2 (List.mem_append_left [a] hx)

theorem firstNew_mem :
    ∀ (l seen : List String) (x : String), x ∈ l → x ∉ seen → x ∈ firstNew l seen := by
  intro l
  induction l with
  | nil => intro seen x h; cases h
  | cons a t ih =>
    intro seen x hx hns
    unfold firstNew
    by_cases ha : a ∈ seen
    · rw [if_pos ha]
      rcases List.mem_cons.mp hx with he | hm
      · subst he; exact absurd ha hns
      · exact ih seen x hm hns
    · rw [if_neg ha]
      by_cases hxa : x = a
      · subst hxa
        exact List.mem_cons_self x _
      · rcases List.mem_cons.mp hx with he | hm
        · exact absurd he hxa
        · refine List.mem_cons_of_mem a (ih (seen ++ [a]) x hm ?_)
          intro hx2
          rcases List.mem_append.mp hx2 with h1 | h2
          · exact hns h1
          · exact hxa (List.mem_singleton.mp h2)

theorem firstNew_nodup : ∀ (l seen : List String), (firstNew l seen).Nodup := by
  intro l
  induction l with
  | nil => intro seen; exact List.nodup_nil
  | cons a t ih =>
    intro seen
    unfold firstNew
    by_cases ha : a ∈ seen
    · rw [if_pos ha]; exact ih seen
    · rw [if_neg ha]
      rw [List.nodup_cons]
      refine ⟨?_, ih (seen ++ [a])⟩
      intro hmem
      have := (firstNew_subset t (seen ++ [a]) a hmem).2
      exact this (List.mem_append_right seen (List.mem_singleton.mpr rfl))

theorem firstNew_sorted :
    ∀ (l seen : List String),
      (firstNew l seen).Pairwise (fun x y => l.indexOf x < l.indexOf y) := by
  intro l
  induction l with
  | nil => intro seen; exact List.Pairwise.nil
  | cons a t ih =>
    intro seen
    unfold firstNew
    by_cases ha : a ∈ seen
    · rw [if_pos ha]
      refine (ih seen).imp_of_mem ?_
      intro x y hx hy hr
      have hxa : x ≠ a := by
        intro he
        exact (firstNew_subset t seen x hx).2 (he ▸ ha)
      have hya : y ≠ a := by
        intro he
        exact (firstNew_subset t seen y hy).2 (he ▸ ha)
      rw [List.indexOf_cons_ne t (fun h => hxa h.symm),
        List.indexOf_cons_ne t (fun h => hya h.symm)]
      exact Nat.succ_lt_succ hr
    · rw [if_neg ha]
      rw [List.pairwise_cons]
      constructor
      · intro y hy
        have hya : y ≠ a := by
          intro he
          exact (firstNew_subset t (seen ++ [a]) y hy).2
            (he ▸ List.mem_append_right seen (List.mem_singleton.mpr rfl))
        rw [List.indexOf_cons_self, List.indexOf_cons_ne t (fun h => hya h.symm)]
        exact Nat.succ_pos _
      · refine (ih (seen ++ [a])).imp_of_mem ?_
        intro x y hx hy hr
        have hxa : x ≠ a := by
          intro he
          exact (firstNew_subset t (seen ++ [a]) x hx).2
            (he ▸ List.mem_append_right seen (List.mem_singleton.mpr rfl))
        have hya : y ≠ a := by
          intro he
          exact (firstNew_subset t (seen ++ [a]) y hy).2
            (he ▸ List.mem_append_right seen (List.mem_singleton.mpr rfl))
        rw [List.indexOf_cons_ne t (fun h => hxa h.symm),
          List.indexOf_cons_ne t (fun h => hya h.symm)]
        exact Nat.succ_lt_succ hr

theorem orderedAffiliations_firstNew (authors : List PaperAuthor) :
    orderedAffiliations authors = firstNew (affilStream authors) [] := by
  rw [orderedAffiliations_eq_foldl, foldl_insertNew_eq_firstNew]
  rfl

theorem affilBody_eq_join (ordered : List String) :
    ∀ entries : List String, entries ≠ [] →
      (∀ a ∈ entries, trimStr a = a) →
      (∀ a ∈ entries.dropLast, a ≠ entries.getLastD "") →
      affilBody ordered entries (entries.getLastD "") =
        joinSep "," (entries.map (fun a => affilTag ordered (trimStr a))) := by
  intro entries
  induction entries with
  | nil => intro h; exact absurd rfl h
  | cons a t ih =>
    intro _ hclean hlast
    have hta : trimStr a = a := hclean a (List.mem_cons_self a t)
    cases t with
    | nil =>
      have hld : ([a] : List String).getLastD "" = a := by
        rw [List.getLastD_cons]
        rfl
      unfold affilBody
      rw [hld, hta]
      rw [bne_self_eq_false]
      simp only [Bool.false_eq_true, if_false]
      unfold affilBody
      rw [List.map_cons, List.map_nil, hta]
      unfold joinSep
      rw [String.append_empty, String.append_empty]
    | cons b t' =>
      have hld : (a :: b :: t').getLastD "" = (b :: t').getLastD "" := by
        simp [List.getLastD_cons]
      have hadl : a ∈ (a :: b :: t').dropLast := by
        rw [List.dropLast_cons₂]
        exact List.mem_cons_self a _
      have hane : a ≠ (a :: b :: t').getLastD "" := hlast a hadl
      rw [hld] at hane
      have hbody : affilBody ordered (a :: b :: t') ((b :: t').getLastD "") =
          (affilTag ordered (trimStr a) ++ (if trimStr a != (b :: t').getLastD "" then ","
            else "")) ++ affilBody ordered (b :: t') ((b :: t').getLastD "") := rfl
      rw [hld, hbody, hta]
      rw [if_pos (bne_iff_ne.mpr hane)]
      have hih := ih (by intro h; cases h)
        (fun x hx => hclean x (List.mem_cons_of_mem a hx))
        (fun x hx => by
          have hx2 : x ∈ (a :: b :: t').dropLast := by
            rw [List.dropLast_cons₂]
            exact List.mem_cons_of_mem a hx
          have := hlast x hx2
          rw [hld] at this
          exact this)
      rw [hih]
      simp only [List.map_cons, hta]
      rfl

theorem affilTxt_eq (ordered : List String) (affilStr : String) (isFirst : Bool)
    (hclean : ∀ a ∈ splitStr ',' affilStr, trimStr a = a)
    (hlast : ∀ a ∈ (splitStr ',' affilStr).dropLast,
      a ≠ (splitStr ',' affilStr).getLastD "") :
    affilTxt ordered affilStr isFirst =
      "\\inst\x7b" ++
        joinSep "," ((splitStr ',' affilStr).map (fun a => affilTag ordered (trimStr a))) ++
        (if isFirst then ",*" else "") ++ "\x7d" := by
  unfold affilTxt
  rw [affilBody_eq_join ordered (splitStr ',' affilStr) (splitStr_ne_nil ',' affilStr)
    hclean hlast]

theorem instituteEntries_spec (ordered : List String) (roster : List AffilRow)
    (hnd : ordered.Nodup) :
    ∀ k (hk : k < ordered.length),
      (instituteEntries ordered roster).getD k ("", none) =
        (affilTag ordered (ordered.get ⟨k, hk⟩),
          affilLookup roster (ordered.get ⟨k, hk⟩)) := by
  intro k hk
  have hk' : k < (instituteEntries ordered roster).length := by
    simpa [instituteEntries] using hk
  rw [List.getD_eq_get?, List.get?_eq_get hk']
  have hget : (instituteEntries ordered roster).get ⟨k, hk'⟩ =
      (toString (k + 1), affilLookup roster (ordered.getD k "")) := by
    unfold instituteEntries
    rw [List.get_map]
    rw [List.get_range]
  rw [hget]
  have hgd : ordered.getD k "" = ordered.get ⟨k, hk⟩ := by
    rw [List.getD_eq_get?, List.get?_eq_get hk]
    rfl
  rw [hgd]
  unfold affilTag
  rw [List.get_indexOf hnd ⟨k, hk⟩]
  rfl

/-- C6 counterexample: with an affiliation cell written "x, y" (a space
after the comma), the source's comma test compares the STRIPPED entry
against the RAW last entry, so a trailing comma is emitted and the
annotation is NOT the comma-joined tag list (the claim would predict
`\inst{1,2,*}`). -/
theorem aanda_render_counterexample :
    affilTxt (orderedAffiliations [⟨"A", "x, y", "", ""⟩]) "x, y" true =
      "\\inst\x7b1,2,,*\x7d" ∧
    "\\inst\x7b1,2,,*\x7d" ≠
      "\\inst\x7b" ++
        joinSep "," ((splitStr ',' "x, y").map
          (fun a => affilTag (orderedAffiliations [⟨"A", "x, y", "", ""⟩]) (trimStr a))) ++
        ",*\x7d" := by
  exact ⟨by decide, by decide⟩

/-- C6 (amended): under the AANDA style, the distinct stripped
affiliation codes receive 1-based tags in first-seen order scanning the
authors in paper order (the ordered list is duplicate-free, carries
exactly the scanned entries, and is sorted by first occurrence in the
scan stream); provided every raw entry of an author's comma-separated
affiliation cell is already stripped and no entry of the cell other than
the last equals the last (in particular there are no interior spaces and
no duplicate of the last entry), each author's annotation is the
comma-joined tags of their affiliations in listed order, with the
corresponding-author mark `,*` appended exactly for the first author;
and the k-th institute entry carries the tag `k+1` — the same tag the
author annotations use for that code — paired with the roster lookup of
the code. -/
theorem aanda_render_amended (authors : List PaperAuthor) (roster : List AffilRow)
    (hclean : ∀ au ∈ authors, ∀ a ∈ splitStr ',' au.affiliations, trimStr a = a)
    (hlast : ∀ au ∈ authors, ∀ a ∈ (splitStr ',' au.affiliations).dropLast,
      a ≠ (splitStr ',' au.affiliations).getLastD "") :
    (orderedAffiliations authors).Nodup ∧
    (∀ x, x ∈ orderedAffiliations authors ↔ x ∈ affilStream authors) ∧
    (orderedAffiliations authors).Pairwise
      (fun x y => (affilStream authors).indexOf x < (affilStream authors).indexOf y) ∧
    (∀ i (hi : i < authors.length),
      affilTxt (orderedAffiliations authors) (authors.get ⟨i, hi⟩).affiliations
          (decide (i = 0)) =
        "\\inst\x7b" ++
          joinSep "," ((splitStr ',' (authors.get ⟨i, hi⟩).affiliations).map
            (fun a => affilTag (orderedAffiliations authors) (trimStr a))) ++
          (if i = 0 then ",*" else "") ++ "\x7d") ∧
    (∀ k (hk : k < (orderedAffiliations authors).length),
      (instituteEntries (orderedAffiliations authors) roster).getD k ("", none) =
        (affilTag (orderedAffiliations authors)
            ((orderedAffiliations authors).get ⟨k, hk⟩),
          affilLookup roster ((orderedAffiliations authors).get ⟨k, hk⟩))) := by
  have hfn := orderedAffiliations_firstNew authors
  have hnd : (orderedAffiliations authors).Nodup := by
    rw [hfn]
    exact firstNew_nodup _ _
  refine ⟨hnd, ?_, ?_, ?_, ?_⟩
  · intro x
    constructor
    · intro hx
      rw [hfn] at hx
      exact (firstNew_subset _ _ x hx).1
    · intro hx
      rw [hfn]
      exact firstNew_mem _ _ x hx (by intro h; cases h)
  · rw [hfn]
    exact firstNew_sorted _ _
  · intro i hi
    have h1 := affilTxt_eq (orderedAffiliations authors)
      (authors.get ⟨i, hi⟩).affiliations (decide (i = 0))
      (hclean _ (List.get_mem authors i hi))
      (hlast _ (List.get_mem authors i hi))
    rw [h1]
    by_cases h0 : i = 0
    · rw [if_pos (decide_eq_true h0), if_pos h0]
    · rw [if_neg ?_, if_neg h0]
      rw [decide_eq_false h0]
      intro hcon
      cases hcon
  · exact instituteEntries_spec (orderedAffiliations authors) roster hnd

/-- Witness for the amended C6 on the claim's end-to-end scenario:
authors A (affiliations "x,y") and B ("x"), roster x, y. -/
theorem aanda_render_amended_witness :
    ((∀ au ∈ ([⟨"Author A", "x,y", "", ""⟩, ⟨"Author B", "x", "", ""⟩] : List PaperAuthor),
        ∀ a ∈ splitStr ',' au.affiliations, trimStr a = a) ∧
      (∀ au ∈ ([⟨"Author A", "x,y", "", ""⟩, ⟨"Author B", "x", "", ""⟩] : List PaperAuthor),
        ∀ a ∈ (splitStr ',' au.affiliations).dropLast,
          a ≠ (splitStr ',' au.affiliations).getLastD "")) ∧
    ((orderedAffiliations [⟨"Author A", "x,y", "", ""⟩, ⟨"Author B", "x", "", ""⟩]).Nodup ∧
      (∀ x, x ∈ orderedAffiliations [⟨"Author A", "x,y", "", ""⟩, ⟨"Author B", "x", "", ""⟩] ↔
        x ∈ affilStream [⟨"Author A", "x,y", "", ""⟩, ⟨"Author B", "x", "", ""⟩]) ∧
      (orderedAffiliations [⟨"Author A", "x,y", "", ""⟩, ⟨"Author B", "x", "", ""⟩]).Pairwise
        (fun x y =>
          (affilStream [⟨"Author A", "x,y", "", ""⟩, ⟨"Author B", "x", "", ""⟩]).indexOf x <
          (affilStream [⟨"Author A", "x,y", "", ""⟩, ⟨"Author B", "x", "", ""⟩]).indexOf y) ∧
      (∀ i (hi : i < ([⟨"Author A", "x,y", "", ""⟩, ⟨"Author B", "x", "", ""⟩] :
          List PaperAuthor).length),
        affilTxt (orderedAffiliations [⟨"Author A", "x,y", "", ""⟩, ⟨"Author B", "x", "", ""⟩])
            ((([⟨"Author A", "x,y", "", ""⟩, ⟨"Author B", "x", "", ""⟩] :
              List PaperAuthor).get ⟨i, hi⟩).affiliations) (decide (i = 0)) =
          "\\inst\x7b" ++
            joinSep "," ((splitStr ','
              ((([⟨"Author A", "x,y", "", ""⟩, ⟨"Author B", "x", "", ""⟩] :
                List PaperAuthor).get ⟨i, hi⟩).affiliations)).map
              (fun a => affilTag
                (orderedAffiliations [⟨"Author A", "x,y", "", ""⟩, ⟨"Author B", "x", "", ""⟩])
                (trimStr a))) ++
            (if i = 0 then ",*" else "") ++ "\x7d") ∧
      (∀ k (hk : k < (orderedAffiliations
          [⟨"Author A", "x,y", "", ""⟩, ⟨"Author B", "x", "", ""⟩]).length),
        (instituteEntries
            (orderedAffiliations [⟨"Author A", "x,y", "", ""⟩, ⟨"Author B", "x", "", ""⟩])
            [⟨"x", "Inst X, Country1"⟩, ⟨"y", "Inst Y, Country2"⟩]).getD k ("", none) =
          (affilTag (orderedAffiliations [⟨"Author A", "x,y", "", ""⟩, ⟨"Author B", "x", "", ""⟩])
              ((orderedAffiliations [⟨"Author A", "x,y", "", ""⟩,
                ⟨"Author B", "x", "", ""⟩]).get ⟨k, hk⟩),
            affilLookup [⟨"x", "Inst X, Country1"⟩, ⟨"y", "Inst Y, Country2"⟩]
              ((orderedAffiliations [⟨"Author A", "x,y", "", ""⟩,
                ⟨"Author B", "x", "", ""⟩]).get ⟨k, hk⟩)))) :=
  ⟨⟨by decide, by decide⟩,
    aanda_render_amended [⟨"Author A", "x,y", "", ""⟩, ⟨"Author B", "x", "", ""⟩]
      [⟨"x", "Inst X, Country1"⟩, ⟨"y", "Inst Y, Country2"⟩] (by decide) (by decide)⟩

/-! ## Acknowledgement grouping (claim C7) -/

/-- C7 counterexample: the contributor test is a SUBSTRING test on the
raw acknowledgement cell, so an author whose code list is ["AB"] — which
does not contain the code "A" — still contributes to the group of "A". -/
theorem ack_grouping_counterexample :
    ackWho [⟨"a", "", "A", "AA"⟩, ⟨"b", "", "AB", "BB"⟩] "A" = ["AA", "BB"] ∧
    "A" ∉ ackCodes (⟨"b", "", "AB", "BB"⟩ : PaperAuthor) := by
  exact ⟨by decide, by decide⟩

theorem whoTxt_eq_spec :
    ∀ who : List String, who ≠ [] → whoTxt who = some (specJoinInitials who) := by
  intro who
  induction who with
  | nil => intro h; exact absurd rfl h
  | cons w ws ih =>
    intro _
    match ws with
    | [] => rfl
    | [w2] => rfl
    | v :: u :: t =>
      have h2 : some (joinSep ", " ((v :: u :: t).dropLast) ++ " \\& " ++
          (v :: u :: t).getLastD "" ++ " ") = some (specJoinInitials (v :: u :: t)) :=
        ih (by intro h; cases h)
      injection h2 with h2'
      show some (joinSep ", " ((w :: v :: u :: t).dropLast) ++ " \\& " ++
          (w :: v :: u :: t).getLastD "" ++ " ") = some (specJoinInitials (w :: v :: u :: t))
      have hdl : (w :: v :: u :: t).dropLast = w :: (v :: u :: t).dropLast :=
        List.dropLast_cons₂
      have hdl2 : (v :: u :: t).dropLast = v :: (u :: t).dropLast := List.dropLast_cons₂
      have hld : (w :: v :: u :: t).getLastD "" = (v :: u :: t).getLastD "" := by
        simp [List.getLastD_cons]
      have hsp : specJoinInitials (w :: v :: u :: t) =
          w ++ ", " ++ specJoinInitials (v :: u :: t) := rfl
      rw [hdl, hld, hsp, ← h2', hdl2]
      simp only [joinSep]
      simp [String.append_assoc]

theorem ackWho_eq_filter (authors : List PaperAuthor) (uack : String)
    (hsub : ∀ au ∈ authors,
      strContains au.acknowledgements uack = true ↔ uack ∈ ackCodes au) :
    ackWho authors uack =
      (authors.filter (fun au => decide (uack ∈ ackCodes au))).map
        (fun au => au.initials) := by
  unfold ackWho
  congr 1
  apply List.filter_congr
  intro au hau
  by_cases h : uack ∈ ackCodes au
  · rw [decide_eq_true h, (hsub au hau).mpr h]
  · rw [decide_eq_false h]
    rw [Bool.eq_false_iff]
    intro hcon
    exact h ((hsub au hau).mp hcon)

theorem replaceList_no_brace (rep : List Char) :
    ∀ (fuel : Nat) (hay : List Char), '\x7b' ∉ hay →
      replaceList ("\x7bINITIALS\x7d".data) rep fuel hay = hay := by
  intro fuel
  induction fuel with
  | zero => intro hay _; rfl
  | succ f ih =>
    intro hay hnb
    match hay with
    | [] => rfl
    | c :: t =>
      have hc : c ≠ '\x7b' := by
        intro he
        exact hnb (he ▸ List.mem_cons_self c t)
      have hpref : ("\x7bINITIALS\x7d".data).isPrefixOf (c :: t) = false := by
        show (('\x7b' == c) && _) = false
        rw [beq_eq_false_iff_ne.mpr (fun he => hc he.symm)]
        rfl
      unfold replaceList
      rw [hpref]
      simp only [Bool.false_eq_true, if_false]
      rw [ih t (fun hm => hnb (List.mem_cons_of_mem c hm))]

theorem replaceList_cons_pos {pat rep : List Char} {c : Char} {t : List Char} {f : Nat}
    (h : pat.isPrefixOf (c :: t) = true) :
    replaceList pat rep (f + 1) (c :: t) =
      rep ++ replaceList pat rep f ((c :: t).drop pat.length) := by
  conv_lhs => unfold replaceList
  rw [h]
  simp

theorem replaceList_cons_neg {pat rep : List Char} {c : Char} {t : List Char} {f : Nat}
    (h : pat.isPrefixOf (c :: t) = false) :
    replaceList pat rep (f + 1) (c :: t) = c :: replaceList pat rep f t := by
  conv_lhs => unfold replaceList
  rw [h]
  simp

theorem replaceList_single (rep : List Char) :
    ∀ (pre post : List Char), '\x7b' ∉ pre → '\x7b' ∉ post →
      ∀ fuel, (pre ++ "\x7bINITIALS\x7d".data ++ post).length ≤ fuel →
        replaceList ("\x7bINITIALS\x7d".data) rep fuel
            (pre ++ "\x7bINITIALS\x7d".data ++ post) =
          pre ++ rep ++ post := by
  intro pre
  induction pre with
  | nil =>
    intro post _ hpost fuel hfuel
    rw [List.nil_append] at hfuel ⊢
    match fuel with
    | 0 => simp at hfuel
    | f + 1 =>
      have hshape : "\x7bINITIALS\x7d".data ++ post =
          '\x7b' :: ("INITIALS\x7d".data ++ post) := rfl
      have hp : ("\x7bINITIALS\x7d".data).isPrefixOf
          ('\x7b' :: ("INITIALS\x7d".data ++ post)) = true := by
        rw [← hshape, List.isPrefixOf_iff_prefix]
        exact List.prefix_append _ _
      rw [hshape, replaceList_cons_pos hp, ← hshape, List.drop_left]
      rw [replaceList_no_brace rep f post hpost]
      rfl
  | cons c pre' ih =>
    intro post hpre hpost fuel hfuel
    have hc : c ≠ '\x7b' := by
      intro he
      exact hpre (he ▸ List.mem_cons_self c pre')
    match fuel with
    | 0 => simp at hfuel
    | f + 1 =>
      have hshape : (c :: pre') ++ "\x7bINITIALS\x7d".data ++ post =
          c :: (pre' ++ "\x7bINITIALS\x7d".data ++ post) := by simp
      have hpref : ("\x7bINITIALS\x7d".data).isPrefixOf
          (c :: (pre' ++ "\x7bINITIALS\x7d".data ++ post)) = false := by
        show (('\x7b' == c) && _) = false
        rw [beq_eq_false_iff_ne.mpr (fun he => hc he.symm)]
        rfl
      rw [hshape, replaceList_cons_neg hpref]
      rw [ih post (fun hm => hpre (List.mem_cons_of_mem c hm)) hpost f
        (by
          rw [hshape] at hfuel
          simpa using Nat.le_of_succ_le_succ hfuel)]
      rfl

theorem infixOfB_nil : ∀ hay : List Char, infixOfB [] hay = true := by
  intro hay
  cases hay with
  | nil => rfl
  | cons c t => rfl

theorem infixOfB_of_split :
    ∀ (pat pre post : List Char), infixOfB pat (pre ++ pat ++ post) = true := by
  intro pat pre
  induction pre with
  | nil =>
    intro post
    rw [List.nil_append]
    match pat with
    | [] => exact infixOfB_nil _
    | p :: ps =>
      show ((p :: ps).isPrefixOf (p :: (ps ++ post)) || infixOfB (p :: ps) (ps ++ post)) = true
      rw [Bool.or_eq_true]
      left
      rw [ List.isPrefixOf_iff_prefix]
      have : p :: (ps ++ post) = (p :: ps) ++ post := rfl
      rw [this]
      exact List.prefix_append _ _
  | cons c pre' ih =>
    intro post
    show (pat.isPrefixOf (c :: (pre' ++ pat ++ post)) ||
      infixOfB pat (pre' ++ pat ++ post)) = true
    rw [Bool.or_eq_true]
    right
    exact ih post

theorem substGuard_single (w t : String) (pre post : List Char)
    (hsplit : t.data = pre ++ "\x7bINITIALS\x7d".data ++ post)
    (hpre : '\x7b' ∉ pre) (hpost : '\x7b' ∉ post) :
    substGuard t w = ⟨pre ++ w.data ++ post⟩ := by
  unfold substGuard
  have hcontains : strContains t "\x7bINITIALS\x7d" = true := by
    unfold strContains
    rw [hsplit]
    exact infixOfB_of_split _ _ _
  rw [hcontains]
  simp only [if_true]
  unfold strReplace
  rw [String.ext_iff]
  show replaceList _ _ t.data.length t.data = _
  rw [hsplit]
  exact replaceList_single w.data pre post hpre hpost _ (le_refl _)

/-- C7 (amended): authors contribute to a code's group exactly when the
code occurs as a SUBSTRING of their raw acknowledgement cell; under the
hypothesis that for the given code the substring test agrees with
membership in the author's parsed code list, the group is exactly the
authors whose code list contains the code, their initials are joined
with commas and a final ampersand before the last entry (trailing
space included), and that joined string replaces the `{INITIALS}`
placeholder in the code's template (stated for templates with a single
brace-delimited occurrence). -/
theorem ack_grouping_amended (authors : List PaperAuthor) (ackRoster : List AckRow)
    (uack : String)
    (hsub : ∀ au ∈ authors,
      strContains au.acknowledgements uack = true ↔ uack ∈ ackCodes au)
    (hex : ∃ au ∈ authors, uack ∈ ackCodes au)
    (t : String) (ht : ackTextFor ackRoster uack = some t)
    (pre post : List Char)
    (hsplit : t.data = pre ++ "\x7bINITIALS\x7d".data ++ post)
    (hpre : '\x7b' ∉ pre) (hpost : '\x7b' ∉ post) :
    ackWho authors uack =
      (authors.filter (fun au => decide (uack ∈ ackCodes au))).map
        (fun au => au.initials) ∧
    whoTxt (ackWho authors uack) = some (specJoinInitials (ackWho authors uack)) ∧
    ackGroupText authors ackRoster uack =
      some ⟨pre ++ (specJoinInitials (ackWho authors uack)).data ++ post⟩ := by
  have hfilter := ackWho_eq_filter authors uack hsub
  have hne : ackWho authors uack ≠ [] := by
    rcases hex with ⟨au, hau, hcode⟩
    rw [hfilter]
    have hmem : au ∈ authors.filter (fun au => decide (uack ∈ ackCodes au)) :=
      List.mem_filter.mpr ⟨hau, decide_eq_true hcode⟩
    exact List.ne_nil_of_mem (List.mem_map_of_mem (fun au => au.initials) hmem)
  have hwho := whoTxt_eq_spec (ackWho authors uack) hne
  refine ⟨hfilter, hwho, ?_⟩
  unfold ackGroupText
  rw [hwho, ht]
  show some (substGuard t (specJoinInitials (ackWho authors uack))) = _
  rw [substGuard_single (specJoinInitials (ackWho authors uack)) t pre post
    hsplit hpre hpost]

/-- Witness for the amended C7 at a concrete two-author roster and a
one-entry acknowledgement roster with a single placeholder. -/
theorem ack_grouping_amended_witness :
    ((∀ au ∈ ([⟨"a", "", "A", "AA"⟩, ⟨"b", "", "B,A", "BB"⟩] : List PaperAuthor),
        strContains au.acknowledgements "A" = true ↔ "A" ∈ ackCodes au) ∧
      (∃ au ∈ ([⟨"a", "", "A", "AA"⟩, ⟨"b", "", "B,A", "BB"⟩] : List PaperAuthor),
        "A" ∈ ackCodes au) ∧
      ackTextFor [⟨"A", "Thanks \x7bINITIALS\x7dfor help"⟩] "A" =
        some "Thanks \x7bINITIALS\x7dfor help" ∧
      ("Thanks \x7bINITIALS\x7dfor help" : String).data =
        "Thanks ".data ++ "\x7bINITIALS\x7d".data ++ "for help".data ∧
      '\x7b' ∉ "Thanks ".data ∧ '\x7b' ∉ "for help".data) ∧
    (ackWho [⟨"a", "", "A", "AA"⟩, ⟨"b", "", "B,A", "BB"⟩] "A" =
      (([⟨"a", "", "A", "AA"⟩, ⟨"b", "", "B,A", "BB"⟩] : List PaperAuthor).filter
        (fun au => decide ("A" ∈ ackCodes au))).map (fun au => au.initials) ∧
    whoTxt (ackWho [⟨"a", "", "A", "AA"⟩, ⟨"b", "", "B,A", "BB"⟩] "A") =
      some (specJoinInitials (ackWho [⟨"a", "", "A", "AA"⟩, ⟨"b", "", "B,A", "BB"⟩] "A")) ∧
    ackGroupText [⟨"a", "", "A", "AA"⟩, ⟨"b", "", "B,A", "BB"⟩]
        [⟨"A", "Thanks \x7bINITIALS\x7dfor help"⟩] "A" =
      some ⟨"Thanks ".data ++
        (specJoinInitials (ackWho [⟨"a", "", "A", "AA"⟩, ⟨"b", "", "B,A", "BB"⟩] "A")).data ++
        "for help".data⟩) :=
  ⟨⟨by decide, by decide, by decide, by decide, by decide, by decide⟩,
    ack_grouping_amended [⟨"a", "", "A", "AA"⟩, ⟨"b", "", "B,A", "BB"⟩]
      [⟨"A", "Thanks \x7bINITIALS\x7dfor help"⟩] "A" (by decide) (by decide)
      "Thanks \x7bINITIALS\x7dfor help" (by decide) "Thanks ".data "for help".data
      (by decide) (by decide) (by decide)⟩

/-! ## Rendered-output post-processing (claim C8) -/

/-- C8 counterexample: an ampersand without surrounding spaces — e.g. in
"A&M" — is NOT escaped by `safe_latex` (which only replaces the
space-surrounded pattern " & "), so the rendered output contains a bare
ampersand and the claim's "every literal ampersand is escaped" fails. -/
theorem render_output_counterexample :
    finalOutput "A&M" "" = "A&M\n\n" ∧
    ampsEscaped (finalOutput "A&M" "").data = false := by
  exact ⟨by decide, by decide⟩

theorem replaceList_amp_nomatch (rep : List Char) :
    ∀ (fuel : Nat) (hay : List Char), '&' ∉ hay →
      replaceList (" & ".data) rep fuel hay = hay := by
  intro fuel
  induction fuel with
  | zero => intro hay _; rfl
  | succ f ih =>
    intro hay hna
    match hay with
    | [] => rfl
    | c :: t =>
      have hpref : (" & ".data).isPrefixOf (c :: t) = false := by
        match t with
        | [] =>
          show ((' ' == c) && false) = false
          rw [Bool.and_false]
        | d :: t' =>
          have hd : d ≠ '&' := by
            intro he
            exact hna (List.mem_cons_of_mem c (he ▸ List.mem_cons_self d t'))
          show ((' ' == c) && (('&' == d) && _)) = false
          rw [beq_eq_false_iff_ne.mpr (fun he => hd he.symm)]
          rw [Bool.false_and, Bool.and_false]
      rw [replaceList_cons_neg hpref]
      rw [ih t (fun hm => hna (List.mem_cons_of_mem c hm))]

theorem replaceList_amp_single (rep : List Char) :
    ∀ (l r : List Char), '&' ∉ l → '&' ∉ r →
      ∀ fuel, (l ++ " & ".data ++ r).length ≤ fuel →
        replaceList (" & ".data) rep fuel (l ++ " & ".data ++ r) = l ++ rep ++ r := by
  intro l
  induction l with
  | nil =>
    intro r _ hr fuel hfuel
    rw [List.nil_append] at hfuel ⊢
    match fuel with
    | 0 => simp at hfuel
    | f + 1 =>
      have hshape : " & ".data ++ r = ' ' :: ('&' :: ' ' :: r) := rfl
      have hp : (" & ".data).isPrefixOf (' ' :: ('&' :: ' ' :: r)) = true := by
        rw [← hshape, List.isPrefixOf_iff_prefix]
        exact List.prefix_append _ _
      rw [hshape, replaceList_cons_pos hp, ← hshape, List.drop_left]
      rw [replaceList_amp_nomatch rep f r hr]
      rfl
  | cons c l' ih =>
    intro r hl hr fuel hfuel
    have hc : c ≠ '&' := by
      intro he
      exact hl (he ▸ List.mem_cons_self c l')
    match fuel with
    | 0 => simp at hfuel
    | f + 1 =>
      have hshape : (c :: l') ++ " & ".data ++ r = c :: (l' ++ " & ".data ++ r) := by simp
      have hpref : (" & ".data).isPrefixOf (c :: (l' ++ " & ".data ++ r)) = false := by
        match l' with
        | [] =>
          show ((' ' == c) && (('&' == ' ') && _)) = false
          have : ('&' == ' ') = false := by decide
          rw [this, Bool.false_and, Bool.and_false]
        | d :: l'' =>
          have hd : d ≠ '&' := by
            intro he
            exact hl (List.mem_cons_of_mem c (he ▸ List.mem_cons_self d l''))
          show ((' ' == c) && (('&' == d) && _)) = false
          rw [beq_eq_false_iff_ne.mpr (fun he => hd he.symm)]
          rw [Bool.false_and, Bool.and_false]
      rw [hshape, replaceList_cons_neg hpref]
      rw [ih r (fun hm => hl (List.mem_cons_of_mem c hm)) hr f
        (by
          rw [hshape] at hfuel
          simpa using Nat.le_of_succ_le_succ hfuel)]
      rfl

theorem safe_latex_single (s : String) (l r : List Char)
    (hs : s.data = l ++ " & ".data ++ r) (hl : '&' ∉ l) (hr : '&' ∉ r) :
    (safe_latex s).data = l ++ " \\& ".data ++ r := by
  unfold safe_latex strReplace
  show replaceList (" & ".data) (" \\& ".data) s.data.length s.data = _
  rw [hs]
  exact replaceList_amp_single (" \\& ".data) l r hl hr _ (le_refl _)

theorem ampsEscapedFrom_of_no_amp :
    ∀ (l : List Char) (p : Char), '&' ∉ l → ampsEscapedFrom p l = true := by
  intro l
  induction l with
  | nil => intro p _; rfl
  | cons c t ih =>
    intro p hna
    have hc : c ≠ '&' := by
      intro he
      exact hna (he ▸ List.mem_cons_self c t)
    show ((c != '&' || p == '\\') && ampsEscapedFrom c t) = true
    rw [Bool.and_eq_true]
    refine ⟨?_, ih c (fun hm => hna (List.mem_cons_of_mem c hm))⟩
    rw [Bool.or_eq_true]
    left
    exact bne_iff_ne.mpr hc

theorem ampsEscapedFrom_concat :
    ∀ (l R : List Char), '&' ∉ l → '&' ∉ R →
      ∀ p, ampsEscapedFrom p (l ++ ' ' :: '\\' :: '&' :: ' ' :: R) = true := by
  intro l
  induction l with
  | nil =>
    intro R _ hR p
    show ((' ' != '&' || p == '\\') &&
      (('\\' != '&' || ' ' == '\\') &&
        (('&' != '&' || '\\' == '\\') &&
          ((' ' != '&' || '&' == '\\') && ampsEscapedFrom ' ' R)))) = true
    have h1 : (' ' != '&') = true := by decide
    have h2 : ('\\' != '&') = true := by decide
    have h3 : ('\\' == '\\') = true := by decide
    rw [h1, h2, h3]
    simp only [Bool.true_or, Bool.or_true, Bool.true_and]
    exact ampsEscapedFrom_of_no_amp R ' ' hR
  | cons c t ih =>
    intro R hl hR p
    have hc : c ≠ '&' := by
      intro he
      exact hl (he ▸ List.mem_cons_self c t)
    show ((c != '&' || p == '\\') &&
      ampsEscapedFrom c (t ++ ' ' :: '\\' :: '&' :: ' ' :: R)) = true
    rw [Bool.and_eq_true]
    refine ⟨?_, ih R (fun hm => hl (List.mem_cons_of_mem c hm)) hR c⟩
    rw [Bool.or_eq_true]
    left
    exact bne_iff_ne.mpr hc

theorem replacePass_length_le :
    ∀ (n : Nat) (s : List Char), s.length ≤ n → (replacePass s).length ≤ s.length := by
  intro n
  induction n with
  | zero =>
    intro s hs
    match s, hs with
    | [], _ => exact le_refl _
  | succ n ih =>
    intro s hs
    match s with
    | [] => exact le_refl _
    | [c] => exact le_refl _
    | c1 :: c2 :: t =>
      unfold replacePass
      by_cases hsp : c1 = ' ' ∧ c2 = ' '
      · rw [if_pos hsp]
        have := ih t (by
          have : t.length + 2 ≤ n + 1 := by simpa using hs
          omega)
        simp only [List.length_cons]
        have hlt : t.length ≤ t.length + 1 := Nat.le_succ _
        calc (replacePass t).length + 1 ≤ t.length + 1 := Nat.succ_le_succ this
          _ ≤ t.length + 1 + 1 := Nat.le_succ _
      · rw [if_neg hsp]
        have := ih (c2 :: t) (by
          have : t.length + 2 ≤ n + 1 := by simpa using hs
          simp
          omega)
        simp only [List.length_cons] at this ⊢
        omega

theorem replacePass_length_lt :
    ∀ (n : Nat) (s : List Char), s.length ≤ n → containsPair s = true →
      (replacePass s).length < s.length := by
  intro n
  induction n with
  | zero =>
    intro s hs hcp
    match s, hs with
    | [], _ => cases hcp
  | succ n ih =>
    intro s hs hcp
    match s with
    | [] => cases hcp
    | [c] => cases hcp
    | c1 :: c2 :: t =>
      unfold replacePass
      by_cases hsp : c1 = ' ' ∧ c2 = ' '
      · rw [if_pos hsp]
        have hle := replacePass_length_le t.length t (le_refl _)
        simp only [List.length_cons]
        omega
      · rw [if_neg hsp]
        have hcp2 : containsPair (c2 :: t) = true := by
          unfold containsPair at hcp
          rw [if_neg hsp] at hcp
          exact hcp
        have := ih (c2 :: t) (by
          have : t.length + 2 ≤ n + 1 := by simpa using hs
          simp
          omega) hcp2
        simp only [List.length_cons] at this ⊢
        omega

theorem ampsEscapedFrom_replacePass :
    ∀ (n : Nat) (s : List Char), s.length ≤ n → ∀ p,
      ampsEscapedFrom p s = true → ampsEscapedFrom p (replacePass s) = true := by
  intro n
  induction n with
  | zero =>
    intro s hs p h
    match s, hs with
    | [], _ => exact h
  | succ n ih =>
    intro s hs p h
    match s with
    | [] => exact h
    | [c] => exact h
    | c1 :: c2 :: t =>
      unfold replacePass
      by_cases hsp : c1 = ' ' ∧ c2 = ' '
      · rw [if_pos hsp]
        rcases hsp with ⟨h1, h2⟩
        subst h1
        subst h2
        have hs1 : ampsEscapedFrom ' ' t = true := by
          have ha : ampsEscapedFrom p (' ' :: ' ' :: t) =
              (((' ' : Char) != '&' || p == '\\') &&
                (((' ' : Char) != '&' || (' ' : Char) == '\\') &&
                  ampsEscapedFrom ' ' t)) := rfl
          rw [ha] at h
          rw [Bool.and_eq_true, Bool.and_eq_true] at h
          exact h.2.2
        show (((' ' : Char) != '&' || p == '\\') && ampsEscapedFrom ' ' (replacePass t)) = true
        rw [Bool.and_eq_true]
        refine ⟨?_, ih t (by
          have : t.length + 2 ≤ n + 1 := by simpa using hs
          omega) ' ' hs1⟩
        rw [Bool.or_eq_true]
        left
        decide
      · rw [if_neg hsp]
        have ha : ampsEscapedFrom p (c1 :: c2 :: t) =
            ((c1 != '&' || p == '\\') && ampsEscapedFrom c1 (c2 :: t)) := rfl
        rw [ha, Bool.and_eq_true] at h
        show ((c1 != '&' || p == '\\') && ampsEscapedFrom c1 (replacePass (c2 :: t))) = true
        rw [Bool.and_eq_true]
        refine ⟨h.1, ih (c2 :: t) (by
          have : t.length + 2 ≤ n + 1 := by simpa using hs
          simp
          omega) c1 h.2⟩

theorem containsPair_collapseFuel :
    ∀ (fuel : Nat) (s : List Char), s.length ≤ fuel →
      containsPair (collapseFuel fuel s) = false := by
  intro fuel
  induction fuel with
  | zero =>
    intro s hs
    match s, hs with
    | [], _ => rfl
  | succ f ih =>
    intro s hs
    unfold collapseFuel
    by_cases hcp : containsPair s = true
    · rw [if_pos hcp]
      exact ih (replacePass s) (by
        have := replacePass_length_lt s.length s (le_refl _) hcp
        omega)
    · rw [if_neg hcp]
      exact Bool.eq_false_iff.mpr hcp

theorem ampsEscaped_collapseFuel :
    ∀ (fuel : Nat) (s : List Char),
      ampsEscaped s = true → ampsEscaped (collapseFuel fuel s) = true := by
  intro fuel
  induction fuel with
  | zero => intro s h; exact h
  | succ f ih =>
    intro s h
    unfold collapseFuel
    by_cases hcp : containsPair s = true
    · rw [if_pos hcp]
      exact ih (replacePass s)
        (ampsEscapedFrom_replacePass s.length s (le_refl _) ' ' h)
    · rw [if_neg hcp]
      exact h

theorem strCollapse_data (s : String) : (strCollapse s).data = collapseSpaces s.data := rfl

theorem strCollapse_no_pair (s : String) : containsPair (strCollapse s).data = false := by
  rw [strCollapse_data]
  unfold collapseSpaces
  exact containsPair_collapseFuel _ _ (le_refl _)

theorem strCollapse_amps (s : String) (h : ampsEscaped s.data = true) :
    ampsEscaped (strCollapse s).data = true := by
  rw [strCollapse_data]
  unfold collapseSpaces
  exact ampsEscaped_collapseFuel _ _ h

/-- C8 (amended): the final output written to the .tex file never
contains two consecutive space characters (for all inputs); the
ampersand escaping, however, covers only the author block and only
space-surrounded ampersands — when the accent-escaped author block
contains a single ampersand, in the space-surrounded form " & ", and
the accent-escaped acknowledgement block contains no ampersand, every
ampersand in the final output is escaped (preceded by a backslash). -/
theorem render_output_amended :
    (∀ a b : String, containsPair (finalOutput a b).data = false) ∧
    (∀ (a b : String) (l r : List Char),
      (latexify_accents a).data = l ++ " & ".data ++ r → '&' ∉ l → '&' ∉ r →
      '&' ∉ (latexify_accents b).data →
      ampsEscaped (finalOutput a b).data = true) := by
  constructor
  · intro a b
    exact strCollapse_no_pair _
  · intro a b l r hs hl hr hb
    apply strCollapse_amps
    have hsl := safe_latex_single (latexify_accents a) l r hs hl hr
    have hmid : ∀ Z : List Char, " \\& ".data ++ Z = ' ' :: '\\' :: '&' :: ' ' :: Z :=
      fun Z => rfl
    have hdata : ((safe_latex (latexify_accents a) ++ "\n\n" ++ latexify_accents b)).data =
        l ++ ' ' :: '\\' :: '&' :: ' ' ::
          (r ++ ("\n\n".data ++ (latexify_accents b).data)) := by
      rw [String.data_append, String.data_append, hsl]
      simp only [List.append_assoc]
      rw [hmid]
    rw [hdata]
    unfold ampsEscaped
    apply ampsEscapedFrom_concat l _ hl
    intro hmem
    rcases List.mem_append.mp hmem with hm1 | hm2
    · exact hr hm1
    · rcases List.mem_append.mp hm2 with hm3 | hm4
      · exact absurd hm3 (by decide)
      · exact hb hm4

/-- Witness for the amended C8: a concrete author block with one
space-surrounded ampersand and an ampersand-free acknowledgement
block. -/
theorem render_output_amended_witness :
    ((latexify_accents "x & y").data = "x".data ++ " & ".data ++ "y".data ∧
      '&' ∉ "x".data ∧ '&' ∉ "y".data ∧ '&' ∉ (latexify_accents "ok").data) ∧
    containsPair (finalOutput "x & y" "ok").data = false ∧
    ampsEscaped (finalOutput "x & y" "ok").data = true :=
  ⟨⟨by decide, by decide, by decide, by decide⟩,
    render_output_amended.1 "x & y" "ok",
    render_output_amended.2 "x & y" "ok" "x".data "y".data
      (by decide) (by decide) (by decide) (by decide)⟩
